import Mathlib

/-!
Verification development for the pkappa2 stream-manager core.

The Go sources are shallowly embedded: machine integers are modelled as `Nat`
(with explicit `% 2 ^ 64` where Go's `uint64` wrap-around matters), byte
buffers as `List Nat`, Go maps as association lists, bitmasks
(`bitmask.LongBitmask`) as `Finset Nat`, and fallible operations return
`Except String`.  Each embedded definition cites the Go function it was
translated from.
-/

namespace Pkappa2

/-! ## Basic data model (internal/index)

`index.Direction` and `index.Data` are the packet model used by the converter
cache and filter stores. -/

/-- `index.Direction`: direction of one packet of a stream. -/
inductive Direction
  | clientToServer
  | serverToClient
deriving DecidableEq

/-- `Direction.Reverse` from the Go sources. -/
def Direction.rev : Direction → Direction
  | .clientToServer => .serverToClient
  | .serverToClient => .clientToServer

/-- `index.Data`: one packet: a direction and its content bytes. -/
structure Data where
  direction : Direction
  content : List Nat
deriving DecidableEq

@[simp]
theorem Direction.rev_rev (d : Direction) : d.rev.rev = d := by
  cases d <;> rfl

/-! ## Index release pool (manager.Manager.lock / indexReleaser.release)

`Manager.usedIndexes` maps an index reader to its `uint` reference count.  We
model readers by an abstract key type `α` with decidable equality, the map as
an association list, and the Go `uint` wrap-around of `--`/`++` explicitly
with `% 2 ^ 64`. `release` additionally reports which index files were closed
and removed from disk. -/

/-- Reference-count lookup; a missing key reads as `0`, as a Go map does. -/
def countOf {α : Type} [DecidableEq α] : List (α × Nat) → α → Nat
  | [], _ => 0
  | p :: rest, i => if p.1 = i then p.2 else countOf rest i

/-- Store a reference count, replacing the existing entry or appending one
(a Go map holds at most one entry per key). -/
def setCount {α : Type} [DecidableEq α] : List (α × Nat) → α → Nat → List (α × Nat)
  | [], i, c => [(i, c)]
  | p :: rest, i, c => if p.1 = i then (p.1, c) :: rest else p :: setCount rest i c

/-- Delete a reference-count entry (Go `delete(mgr.usedIndexes, i)`). -/
def eraseCount {α : Type} [DecidableEq α] : List (α × Nat) → α → List (α × Nat)
  | [], _ => []
  | p :: rest, i => if p.1 = i then eraseCount rest i else p :: eraseCount rest i

/-- One step of `Manager.lock`: `mgr.usedIndexes[i]++` (uint wrap-around). -/
def lockOne {α : Type} [DecidableEq α] (m : List (α × Nat)) (i : α) :
    List (α × Nat) :=
  setCount m i ((countOf m i + 1) % 2 ^ 64)

/-- `Manager.lock`: increment the refcount of every listed index reader. -/
def lockList {α : Type} [DecidableEq α] (m : List (α × Nat)) (l : List α) :
    List (α × Nat) :=
  l.foldl lockOne m

/-- One step of `indexReleaser.release`: `mgr.usedIndexes[i]--` (uint
wrap-around) and, when the count hits zero, delete the entry, close the
reader and remove its file; removed files are accumulated in the second
component. -/
def releaseOne {α : Type} [DecidableEq α] (st : List (α × Nat) × List α) (i : α) :
    List (α × Nat) × List α :=
  let c := (countOf st.1 i + (2 ^ 64 - 1)) % 2 ^ 64
  if c = 0 then (eraseCount st.1 i, st.2 ++ [i])
  else (setCount st.1 i c, st.2)

/-- `indexReleaser.release`: decrement each contained reader, returning the
updated pool and the list of index files removed from disk. -/
def releaseList {α : Type} [DecidableEq α] (m : List (α × Nat)) (l : List α) :
    List (α × Nat) × List α :=
  l.foldl releaseOne (m, [])

/-! ## View.Stream and StreamContext.Data (manager.go)

`View.Stream` scans the view's index list from the last (newest) entry to the
first. An index reader's `StreamByID` may fail, may report the id as absent
(`nil` stream), or return the stream. -/

/-- A reconstructed stream as `View.Stream` returns it (abstracted: the id,
its packets, and a token distinguishing copies held by different indexes). -/
structure StreamRec where
  sid : Nat
  packets : List Data
  token : Nat
deriving DecidableEq

/-- An index reader as consumed by `View.Stream` (external interface of the
index package): `StreamByID` returns an error, `none` for "not contained",
or the stream. -/
structure ViewIdx where
  streamByID : Nat → Except String (Option StreamRec)

/-- The scan loop of `View.Stream` (`for i := len(v.indexes) - 1; i >= 0; i--`),
given the index list already reversed (newest first). -/
def viewStreamRev : List ViewIdx → Nat → Except String (Option StreamRec)
  | [], _ => .ok none
  | idx :: rest, sid =>
    match idx.streamByID sid with
    | .error e => .error e
    | .ok none => viewStreamRev rest sid
    | .ok (some s) => .ok (some s)

/-- `View.Stream(streamID)`: scan indexes newest to oldest; return the zero
`StreamContext` (modelled as `none`) with a `nil` error if no index holds
the stream. -/
def viewStream (indexes : List ViewIdx) (sid : Nat) :
    Except String (Option StreamRec) :=
  viewStreamRev indexes.reverse sid

/-- `StreamContext.Data(converterName)` for the plain-data case
(`converterName == ""`): the zero context (`none`) yields the
"stream not found" error, otherwise the stream's packets are returned. -/
def streamCtxData (ctx : Option StreamRec) : Except String (List Data) :=
  match ctx with
  | none => .error "stream not found"
  | some s => .ok s.packets

/-! ## Lemmas about the release pool -/

section PoolLemmas

variable {α : Type} [DecidableEq α]

theorem countOf_setCount (m : List (α × Nat)) (i j : α) (c : Nat) :
    countOf (setCount m j c) i = if j = i then c else countOf m i := by
  induction m with
  | nil =>
    by_cases h : j = i <;> simp [setCount, countOf, h]
  | cons p rest ih =>
    rw [setCount]
    by_cases hp : p.1 = j
    · subst hp
      rw [if_pos rfl, countOf, countOf]
      by_cases h : p.1 = i <;> simp [h]
    · rw [if_neg hp, countOf, countOf, ih]
      by_cases h1 : p.1 = i <;> by_cases h2 : j = i
      · exact absurd (h1.trans h2.symm) hp
      · simp [h1, h2]
      · simp [h1, h2]
      · simp [h1, h2]

theorem countOf_eraseCount (m : List (α × Nat)) (i j : α) :
    countOf (eraseCount m j) i = if j = i then 0 else countOf m i := by
  induction m with
  | nil => by_cases h : j = i <;> simp [eraseCount, countOf, h]
  | cons p rest ih =>
    rw [eraseCount]
    by_cases hp : p.1 = j
    · subst hp
      rw [if_pos rfl, ih, countOf]
      by_cases h : p.1 = i <;> simp [h]
    · rw [if_neg hp, countOf, countOf, ih]
      by_cases h1 : p.1 = i <;> by_cases h2 : j = i
      · exact absurd (h1.trans h2.symm) hp
      · simp [h1, h2]
      · simp [h1, h2]
      · simp [h1, h2]

theorem countOf_lockOne_ne (m : List (α × Nat)) (i j : α) (h : j ≠ i) :
    countOf (lockOne m j) i = countOf m i := by
  simp [lockOne, countOf_setCount, h]

theorem countOf_lockList_not_mem (m : List (α × Nat)) (l : List α) (i : α)
    (h : i ∉ l) : countOf (lockList m l) i = countOf m i := by
  induction l generalizing m with
  | nil => rfl
  | cons j rest ih =>
    have hji : j ≠ i := fun hj => h (hj ▸ List.mem_cons_self j rest)
    have hrest : i ∉ rest := fun hr => h (List.mem_cons_of_mem j hr)
    show countOf (lockList (lockOne m j) rest) i = countOf m i
    rw [ih (lockOne m j) hrest, countOf_lockOne_ne m i j hji]

theorem countOf_lockList_mem (m : List (α × Nat)) (l : List α) (i : α)
    (hmem : i ∈ l) (hnd : l.Nodup) (hbound : countOf m i + 1 < 2 ^ 64) :
    countOf (lockList m l) i = countOf m i + 1 := by
  induction l generalizing m with
  | nil => cases hmem
  | cons j rest ih =>
    have hnd' := List.nodup_cons.mp hnd
    by_cases hji : j = i
    · subst hji
      show countOf (lockList (lockOne m j) rest) j = countOf m j + 1
      rw [countOf_lockList_not_mem _ _ _ hnd'.1]
      show countOf (setCount m j ((countOf m j + 1) % 2 ^ 64)) j = countOf m j + 1
      rw [countOf_setCount, if_pos rfl, Nat.mod_eq_of_lt hbound]
    · have hmem' : i ∈ rest := by
        cases List.mem_cons.mp hmem with
        | inl h => exact absurd h.symm hji
        | inr h => exact h
      show countOf (lockList (lockOne m j) rest) i = countOf m i + 1
      rw [ih (lockOne m j) hmem' hnd'.2 (by rwa [countOf_lockOne_ne m i j hji]),
        countOf_lockOne_ne m i j hji]

theorem releaseOne_eq (m : List (α × Nat)) (acc : List α) (i : α) :
    releaseOne (m, acc) i =
      if (countOf m i + (2 ^ 64 - 1)) % 2 ^ 64 = 0 then
        (eraseCount m i, acc ++ [i])
      else (setCount m i ((countOf m i + (2 ^ 64 - 1)) % 2 ^ 64), acc) := rfl

theorem releaseFold_not_mem (l : List α) (m : List (α × Nat)) (acc : List α)
    (i : α) (h : i ∉ l) :
    countOf (l.foldl releaseOne (m, acc)).1 i = countOf m i
    ∧ (i ∈ (l.foldl releaseOne (m, acc)).2 ↔ i ∈ acc) := by
  induction l generalizing m acc with
  | nil => simp
  | cons j rest ih =>
    have hji : j ≠ i := fun hj => h (hj ▸ List.mem_cons_self j rest)
    have hrest : i ∉ rest := fun hr => h (List.mem_cons_of_mem j hr)
    rw [List.foldl_cons, releaseOne_eq]
    by_cases hz : (countOf m j + (2 ^ 64 - 1)) % 2 ^ 64 = 0
    · rw [if_pos hz]
      have := ih (eraseCount m j) (acc ++ [j]) hrest
      refine ⟨?_, ?_⟩
      · rw [this.1, countOf_eraseCount, if_neg hji]
      · rw [this.2]
        have hij : i ≠ j := fun hj => hji hj.symm
        simp [hij]
    · rw [if_neg hz]
      have := ih (setCount m j ((countOf m j + (2 ^ 64 - 1)) % 2 ^ 64)) acc hrest
      refine ⟨?_, this.2⟩
      rw [this.1, countOf_setCount, if_neg hji]

theorem releaseFold_mem (l : List α) (m : List (α × Nat)) (acc : List α)
    (i : α) (hmem : i ∈ l) (hnd : l.Nodup)
    (h1 : 1 ≤ countOf m i) (h2 : countOf m i < 2 ^ 64) :
    countOf (l.foldl releaseOne (m, acc)).1 i = countOf m i - 1
    ∧ (i ∈ (l.foldl releaseOne (m, acc)).2 ↔ i ∈ acc ∨ countOf m i = 1) := by
  induction l generalizing m acc with
  | nil => cases hmem
  | cons j rest ih =>
    have hnd' := List.nodup_cons.mp hnd
    rw [List.foldl_cons, releaseOne_eq]
    by_cases hji : j = i
    · subst hji
      have hmod : (countOf m j + (2 ^ 64 - 1)) % 2 ^ 64 = countOf m j - 1 := by
        omega
      rw [hmod]
      by_cases hone : countOf m j = 1
      · rw [if_pos (by omega)]
        have := releaseFold_not_mem rest (eraseCount m j) (acc ++ [j]) j hnd'.1
        refine ⟨?_, ?_⟩
        · rw [this.1, countOf_eraseCount, if_pos rfl]
          omega
        · rw [this.2]
          simp [hone]
      · rw [if_neg (by omega)]
        have := releaseFold_not_mem rest
          (setCount m j (countOf m j - 1)) acc j hnd'.1
        refine ⟨?_, ?_⟩
        · rw [this.1, countOf_setCount, if_pos rfl]
        · rw [this.2]
          simp [hone]
    · have hmem' : i ∈ rest := by
        cases List.mem_cons.mp hmem with
        | inl h => exact absurd h.symm hji
        | inr h => exact h
      by_cases hz : (countOf m j + (2 ^ 64 - 1)) % 2 ^ 64 = 0
      · rw [if_pos hz]
        have hc : countOf (eraseCount m j) i = countOf m i := by
          rw [countOf_eraseCount, if_neg hji]
        have := ih (eraseCount m j) (acc ++ [j]) hmem' hnd'.2
          (hc ▸ h1) (hc ▸ h2)
        refine ⟨by rw [this.1, hc], ?_⟩
        rw [this.2, hc]
        constructor
        · rintro (hia | hc1)
          · rcases List.mem_append.mp hia with hia | hia
            · exact Or.inl hia
            · exact absurd (List.mem_singleton.mp hia) (fun h => hji h.symm)
          · exact Or.inr hc1
        · rintro (hia | hc1)
          · exact Or.inl (List.mem_append.mpr (Or.inl hia))
          · exact Or.inr hc1
      · rw [if_neg hz]
        have hc : countOf (setCount m j ((countOf m j + (2 ^ 64 - 1)) % 2 ^ 64)) i
            = countOf m i := by
          rw [countOf_setCount, if_neg hji]
        have := ih _ acc hmem' hnd'.2 (hc ▸ h1) (hc ▸ h2)
        exact ⟨by rw [this.1, hc], by rw [this.2, hc]⟩

end PoolLemmas

/-! ## Claim C9: reference counting of index readers -/

/-- C9: `Manager.lock(list)` increments the refcount of every listed index
reader and leaves others untouched; `indexReleaser.release` decrements each
contained reader, and a reader is closed and its file removed from disk
exactly when its refcount reaches zero — the file of a reader with remaining
locks is never removed, and it is removed by the release that drops the last
lock. -/
theorem c9_lock_release_refcounts {α : Type} [DecidableEq α]
    (m : List (α × Nat)) (l : List α) (i : α) (hnd : l.Nodup) :
    (i ∈ l → countOf m i + 1 < 2 ^ 64 →
      countOf (lockList m l) i = countOf m i + 1)
    ∧ (i ∉ l → countOf (lockList m l) i = countOf m i)
    ∧ (i ∈ l → 1 ≤ countOf m i → countOf m i < 2 ^ 64 →
      countOf (releaseList m l).1 i = countOf m i - 1
      ∧ (i ∈ (releaseList m l).2 ↔ countOf m i = 1))
    ∧ (i ∉ l → countOf (releaseList m l).1 i = countOf m i
      ∧ i ∉ (releaseList m l).2) := by
  refine ⟨fun hmem hb => countOf_lockList_mem m l i hmem hnd hb,
    fun hni => countOf_lockList_not_mem m l i hni,
    fun hmem h1 h2 => ?_, fun hni => ?_⟩
  · have := releaseFold_mem l m [] i hmem hnd h1 h2
    exact ⟨this.1, by rw [releaseList, this.2]; simp⟩
  · have := releaseFold_not_mem l m [] i hni
    exact ⟨this.1, by rw [releaseList] at *; simp [this.2]⟩

/-- Witness for C9 at a concrete pool: readers `7` (count 2) and `9` (count 1);
locking both raises the counts to 3 and 2; releasing both lowers them to 1 and
0, and exactly reader `9`'s file is removed. -/
theorem c9_lock_release_refcounts_witness :
    countOf (lockList [((7 : Nat), 2), (9, 1)] [7, 9]) 9 = 2
    ∧ countOf (releaseList [((7 : Nat), 2), (9, 1)] [7, 9]).1 9 = 0
    ∧ (9 ∈ (releaseList [((7 : Nat), 2), (9, 1)] [7, 9]).2)
    ∧ countOf (releaseList [((7 : Nat), 2), (9, 1)] [7, 9]).1 7 = 1
    ∧ (7 ∉ (releaseList [((7 : Nat), 2), (9, 1)] [7, 9]).2) := by
  have h9 := c9_lock_release_refcounts [((7 : Nat), 2), (9, 1)] [7, 9] 9
    (by decide)
  have h7 := c9_lock_release_refcounts [((7 : Nat), 2), (9, 1)] [7, 9] 7
    (by decide)
  have hrel9 := h9.2.2.1 (by decide) (by decide) (by decide)
  have hrel7 := h7.2.2.1 (by decide) (by decide) (by decide)
  refine ⟨h9.1 (by decide) (by decide), hrel9.1, hrel9.2.mpr (by decide),
    hrel7.1, fun hmem => ?_⟩
  have : ¬ countOf [((7 : Nat), 2), (9, 1)] 7 = 1 := by decide
  exact this (hrel7.2.mp hmem)

/-! ## Claim C10: View.Stream scan order and the not-found path -/

/-- The scan skips (newer) indexes that report the stream as absent. -/
theorem viewStreamRev_skip (l rest : List ViewIdx) (sid : Nat)
    (h : ∀ j ∈ l, j.streamByID sid = .ok none) :
    viewStreamRev (l ++ rest) sid = viewStreamRev rest sid := by
  induction l with
  | nil => rfl
  | cons idx l ih =>
    have hidx := h idx (List.mem_cons_self idx l)
    show viewStreamRev (idx :: (l ++ rest)) sid = _
    rw [viewStreamRev, hidx]
    exact ih (fun j hj => h j (List.mem_cons_of_mem idx hj))

/-- C10: `View.Stream(streamID)` scans the view's indexes from newest to
oldest and returns the stream from the newest index containing it; when no
index contains the id it returns the zero `StreamContext` together with a
`nil` error, and `StreamContext.Data` on that zero context is what produces
the "stream not found" error. -/
theorem c10_view_stream_scan :
    (∀ (l₁ l₂ : List ViewIdx) (idx : ViewIdx) (sid : Nat) (s : StreamRec),
      idx.streamByID sid = .ok (some s) →
      (∀ j ∈ l₂, j.streamByID sid = .ok none) →
      viewStream (l₁ ++ idx :: l₂) sid = .ok (some s))
    ∧ (∀ (l : List ViewIdx) (sid : Nat),
      (∀ j ∈ l, j.streamByID sid = .ok none) →
      viewStream l sid = .ok none
      ∧ streamCtxData none = .error "stream not found") := by
  constructor
  · intro l₁ l₂ idx sid s hidx h₂
    show viewStreamRev (l₁ ++ idx :: l₂).reverse sid = _
    rw [List.reverse_append, List.reverse_cons, List.append_assoc]
    rw [viewStreamRev_skip l₂.reverse _ sid
      (fun j hj => h₂ j (List.mem_reverse.mp hj))]
    show viewStreamRev (idx :: l₁.reverse) sid = _
    rw [viewStreamRev, hidx]
  · intro l sid h
    refine ⟨?_, rfl⟩
    show viewStreamRev l.reverse sid = _
    have := viewStreamRev_skip l.reverse [] sid
      (fun j hj => h j (List.mem_reverse.mp hj))
    rw [List.append_nil] at this
    rw [this]
    rfl

/-- Witness for C10: a view with an older index holding stream 5 (token 1)
and a newer index holding stream 5 (token 2) returns the newer copy; stream 6
is in no index, giving the zero context and the "stream not found" error from
`StreamContext.Data`. -/
theorem c10_view_stream_scan_witness :
    viewStream
      [⟨fun n => if n = 5 then .ok (some ⟨5, [], 1⟩) else .ok none⟩,
       ⟨fun n => if n = 5 then .ok (some ⟨5, [], 2⟩) else .ok none⟩] 5
      = .ok (some ⟨5, [], 2⟩)
    ∧ viewStream
      [⟨fun n => if n = 5 then .ok (some ⟨5, [], 1⟩) else .ok none⟩,
       ⟨fun n => if n = 5 then .ok (some ⟨5, [], 2⟩) else .ok none⟩] 6
      = .ok none
    ∧ streamCtxData none = .error "stream not found" := by
  have h1 := c10_view_stream_scan.1
    [⟨fun n => if n = 5 then .ok (some ⟨5, [], 1⟩) else .ok none⟩] []
    ⟨fun n => if n = 5 then .ok (some ⟨5, [], 2⟩) else .ok none⟩ 5 ⟨5, [], 2⟩
    rfl (by intro j hj; cases hj)
  have h2 := c10_view_stream_scan.2
    [⟨fun n => if n = 5 then .ok (some ⟨5, [], 1⟩) else .ok none⟩,
     ⟨fun n => if n = 5 then .ok (some ⟨5, [], 2⟩) else .ok none⟩] 6
    (by
      intro j hj
      rcases List.mem_cons.mp hj with rfl | hj
      · rfl
      rcases List.mem_cons.mp hj with rfl | hj
      · rfl
      cases hj)
  exact ⟨h1, h2.1, h2.2⟩

/-! ## Tags (manager.tag, query.FeatureSet)

`query.FeatureSet` records which of the four filter kinds (id, data,
absolute time, relative time) occur in the main query and in subqueries,
plus the referenced tag names.  The bit-mask `MainFeatures`/`SubQueryFeatures`
is modelled as one `Bool` per feature.  Bitmasks over stream ids
(`bitmask.LongBitmask`) are modelled as `Finset Nat`. -/

/-- `query.FeatureSet` with one `Bool` per feature bit. -/
structure FeatureSet where
  mainID : Bool
  mainData : Bool
  mainTimeAbs : Bool
  mainTimeRel : Bool
  subID : Bool
  subData : Bool
  subTimeAbs : Bool
  subTimeRel : Bool
  mainTags : List String
  subQueryTags : List String
deriving DecidableEq

/-- `manager.tag`: the parsed `Conditions` predicate is opaque to every claim
and is therefore not carried; all remaining fields are kept.  `matched` is
the `Matches` bitmask of the source (`matches` is reserved in Lean). -/
structure Tag where
  matched : Finset Nat
  uncertain : Finset Nat
  features : FeatureSet
  definition : String
  color : String
  converters : List String
deriving DecidableEq

/-- `tag.referencedTags()`: main-query tag references followed by subquery
tag references. -/
def referencedTags (t : Tag) : List String :=
  t.features.mainTags ++ t.features.subQueryTags

/-! ## Claim C4: merge scheduling (Manager.startMergeJobIfNeeded)

The index readers visible to the scheduler are summarized by their stream and
packet counts plus an identity. `Manager.nStreams` is a Go `int`, modelled as
`Int` since the scan subtracts from it. -/

/-- An index reader as the merge scheduler sees it. -/
structure IdxM where
  rid : Nat
  streamCount : Nat
  packetCount : Nat
deriving DecidableEq

/-- Total stream count of a list of indexes, as `Int`. -/
def sumCounts (l : List IdxM) : Int :=
  (l.map (fun x => (x.streamCount : Int))).sum

/-- Total packet count of a list of indexes, as `Int`. -/
def sumPackets (l : List IdxM) : Int :=
  (l.map (fun x => (x.packetCount : Int))).sum

/-- The scan loop of `startMergeJobIfNeeded`: running over the indexes it
keeps `nStreams` minus the counts seen so far and fires at the first position
`i ≥ nUnmergeableIndexes` whose count is below the remainder. -/
def mergeScan (nUnmergeable : Nat) : List IdxM → Nat → Int → Option Nat
  | [], _, _ => none
  | idx :: rest, i, nStreams =>
    let n := nStreams - (idx.streamCount : Int)
    if nUnmergeable ≤ i ∧ (idx.streamCount : Int) < n then some i
    else mergeScan nUnmergeable rest (i + 1) n

/-- The slice of manager state read by `startMergeJobIfNeeded`. -/
structure SchedState where
  mergeJobRunning : Bool
  taggingJobRunning : Bool
  tags : List (String × Tag)
  indexes : List IdxM
  nStreams : Int
  nUnmergeableIndexes : Nat
deriving DecidableEq

/-- `Manager.startMergeJobIfNeeded`: returns the merge job started, if any —
its offset and the locked copy of the indexes from that offset on
(`getIndexesCopy(i)`). `none` models an immediate return without starting a
merge job. -/
def startMergeJobIfNeeded (st : SchedState) : Option (Nat × List IdxM) :=
  if st.mergeJobRunning = true ∨ st.taggingJobRunning = true then none
  else if ∃ p ∈ st.tags, ¬ p.2.uncertain = ∅ then none
  else
    match mergeScan st.nUnmergeableIndexes st.indexes 0 st.nStreams with
    | some i => some (i, st.indexes.drop i)
    | none => none

/-- Eligibility of index position `i` for merging, as the spec words it: the
position is at least `nUnmergeableIndexes` and its index's stream count is
strictly below the total stream count of all later indexes. -/
def mergeEligible (st : SchedState) (i : Nat) : Prop :=
  st.nUnmergeableIndexes ≤ i
  ∧ ∃ x, st.indexes.get? i = some x
    ∧ (x.streamCount : Int) < sumCounts (st.indexes.drop (i + 1))

/-- Relative version of `mergeEligible` used in the scan induction. -/
def eligL (u : Nat) (l : List IdxM) (base j : Nat) : Prop :=
  u ≤ base + j
  ∧ ∃ x, l.get? j = some x ∧ (x.streamCount : Int) < sumCounts (l.drop (j + 1))

theorem mergeScan_iff (u : Nat) (l : List IdxM) (base r : Nat) :
    mergeScan u l base (sumCounts l) = some r ↔
      ∃ j, r = base + j ∧ eligL u l base j ∧ ∀ k < j, ¬ eligL u l base k := by
  induction l generalizing base with
  | nil =>
    simp only [mergeScan]
    constructor
    · intro h
      cases h
    · rintro ⟨j, -, ⟨-, x, hx, -⟩, -⟩
      simp at hx
  | cons idx rest ih =>
    have hsum : sumCounts (idx :: rest) - (idx.streamCount : Int) = sumCounts rest := by
      simp [sumCounts]
    have helig0 : eligL u (idx :: rest) base 0 ↔
        (u ≤ base ∧ (idx.streamCount : Int) < sumCounts rest) := by
      simp [eligL, sumCounts]
    have heligS : ∀ j, eligL u rest (base + 1) j ↔ eligL u (idx :: rest) base (j + 1) := by
      intro j
      simp only [eligL, List.get?_cons_succ, List.drop_succ_cons]
      constructor
      · rintro ⟨h1, hx⟩
        exact ⟨by omega, hx⟩
      · rintro ⟨h1, hx⟩
        exact ⟨by omega, hx⟩
    rw [mergeScan]
    simp only [hsum]
    by_cases hc : u ≤ base ∧ (idx.streamCount : Int) < sumCounts rest
    · rw [if_pos hc]
      constructor
      · intro h
        cases h
        exact ⟨0, by omega, helig0.mpr hc, by omega⟩
      · rintro ⟨j, hr, helig, hmin⟩
        have hj0 : j = 0 := by
          by_contra hne
          exact hmin 0 (by omega) (helig0.mpr hc)
        subst hj0
        simp [hr]
    · rw [if_neg hc]
      rw [ih (base + 1)]
      constructor
      · rintro ⟨j, hr, helig, hmin⟩
        refine ⟨j + 1, by omega, (heligS j).mp helig, ?_⟩
        intro k hk
        cases k with
        | zero => exact fun h0 => hc (helig0.mp h0)
        | succ k' => exact fun hk' => hmin k' (by omega) ((heligS k').mpr hk')
      · rintro ⟨j, hr, helig, hmin⟩
        cases j with
        | zero => exact absurd (helig0.mp helig) hc
        | succ j' =>
          refine ⟨j', by omega, (heligS j').mpr helig, ?_⟩
          intro k hk hke
          exact hmin (k + 1) (by omega) ((heligS k).mp hke)

/-- C4: the scheduler never starts a merge job while a merge or tagging job
is running or while any tag has non-empty `uncertain`; when it does start
one, it picks the first index position `i ≥ nUnmergeableIndexes` whose
index's stream count is strictly below the total stream count of all later
indexes, and the started job covers the indexes from position `i` on.
(`nStreams` equals the total stream count of all indexes, which the import
and merge paths maintain.) -/
theorem c4_merge_gating_and_choice (st : SchedState)
    (h : st.nStreams = sumCounts st.indexes) :
    (st.mergeJobRunning = true ∨ st.taggingJobRunning = true
      ∨ (∃ p ∈ st.tags, ¬ p.2.uncertain = ∅) →
      startMergeJobIfNeeded st = none)
    ∧ ∀ i rest, startMergeJobIfNeeded st = some (i, rest) ↔
      (st.mergeJobRunning = false ∧ st.taggingJobRunning = false
        ∧ (∀ p ∈ st.tags, p.2.uncertain = ∅)
        ∧ mergeEligible st i ∧ (∀ j < i, ¬ mergeEligible st j)
        ∧ rest = st.indexes.drop i) := by
  constructor
  · intro hblock
    rw [startMergeJobIfNeeded]
    rcases hblock with hb | hb | hb
    · rw [if_pos (Or.inl hb)]
    · rw [if_pos (Or.inr hb)]
    · by_cases hrun : st.mergeJobRunning = true ∨ st.taggingJobRunning = true
      · rw [if_pos hrun]
      · rw [if_neg hrun, if_pos hb]
  · intro i rest
    constructor
    · intro hsome
      rw [startMergeJobIfNeeded] at hsome
      by_cases hrun : st.mergeJobRunning = true ∨ st.taggingJobRunning = true
      · rw [if_pos hrun] at hsome
        cases hsome
      · rw [if_neg hrun] at hsome
        by_cases hunc : ∃ p ∈ st.tags, ¬ p.2.uncertain = ∅
        · rw [if_pos hunc] at hsome
          cases hsome
        · rw [if_neg hunc] at hsome
          cases hscan : mergeScan st.nUnmergeableIndexes st.indexes 0 st.nStreams with
          | none =>
            rw [hscan] at hsome
            cases hsome
          | some i2 =>
            rw [hscan] at hsome
            have hpair := Option.some.inj hsome
            have hi2 : i2 = i := congrArg Prod.fst hpair
            have hrest2 : st.indexes.drop i2 = rest := congrArg Prod.snd hpair
            subst hi2
            subst hrest2
            rw [h] at hscan
            rcases (mergeScan_iff _ _ 0 i2).mp hscan with ⟨j, hj, helig, hmin⟩
            have hji : j = i2 := by omega
            subst hji
            refine ⟨by simpa using (fun hm => hrun (Or.inl hm)),
              by simpa using (fun hm => hrun (Or.inr hm)), ?_, ?_, ?_, rfl⟩
            · intro p hp
              by_contra hne
              exact hunc ⟨p, hp, hne⟩
            · exact ⟨by have := helig.1; omega, helig.2⟩
            · intro k hk hke
              exact hmin k hk ⟨by have := hke.1; omega, hke.2⟩
    · rintro ⟨hm, ht, hunc, helig, hmin, hrest⟩
      subst hrest
      rw [startMergeJobIfNeeded, if_neg (by simp [hm, ht]),
        if_neg (by
          rintro ⟨p, hp, hne⟩
          exact hne (hunc p hp)), h]
      have : mergeScan st.nUnmergeableIndexes st.indexes 0
          (sumCounts st.indexes) = some i := by
        rw [mergeScan_iff]
        exact ⟨i, by omega, ⟨by have := helig.1; omega, helig.2⟩,
          fun k hk hke => hmin k hk ⟨by have := hke.1; omega, hke.2⟩⟩
      rw [this]

/-- Witness for C4: with idle jobs, no uncertainty, indexes of sizes
`[5, 2, 3]` and `nStreams = 10`, the scheduler merges from position 1
(count 2 < 3, while position 0 has 5 ≥ 5). -/
theorem c4_merge_gating_and_choice_witness :
    startMergeJobIfNeeded
      ⟨false, false, [],
        [⟨0, 5, 0⟩, ⟨1, 2, 0⟩, ⟨2, 3, 0⟩], 10, 0⟩
      = some (1, [⟨1, 2, 0⟩, ⟨2, 3, 0⟩]) := by
  exact ((c4_merge_gating_and_choice
    ⟨false, false, [], [⟨0, 5, 0⟩, ⟨1, 2, 0⟩, ⟨2, 3, 0⟩], 10, 0⟩
    (by decide)).2 1 [⟨1, 2, 0⟩, ⟨2, 3, 0⟩]).mpr
    (by
      refine ⟨rfl, rfl, by simp, ⟨by decide, ⟨1, 2, 0⟩, rfl, by decide⟩, ?_, rfl⟩
      intro j hj
      interval_cases j
      rintro ⟨-, x, hx, hlt⟩
      have hx' : x = ⟨0, 5, 0⟩ := by
        cases hx
        rfl
      subst hx'
      revert hlt
      decide)

/-! ## Claim C5: merge job completion (Manager.mergeIndexesJob, scheduler part)

The completion closure posted by `mergeIndexesJob` mutates the index list,
the release pool, `nUnmergeableIndexes`, `nStreams`/`nPackets` and the
`mergeJobRunning` flag; `removedFiles` records index files removed from disk
by the release pool. Restarting the scheduler (`startMergeJobIfNeeded`) is a
scheduling action modelled separately (claim C4). -/

/-- The slice of manager state that the merge-completion closure mutates. -/
structure MgrIdxState where
  indexes : List IdxM
  usedIndexes : List (IdxM × Nat)
  removedFiles : List IdxM
  nUnmergeableIndexes : Nat
  nStreams : Int
  nPackets : Int
  mergeJobRunning : Bool
deriving DecidableEq

/-- The scheduler part of `Manager.mergeIndexesJob(offset, indexes, releaser)`
after `index.Merge` returned `mergedIndexes` (with `errored` reporting a
non-nil error): on failure bump `nUnmergeableIndexes`; on success release the
slice `indexes[offset : offset+len(inputs)]`, lock the merged indexes, splice
them in and add `len(merged) - 1` to `nUnmergeableIndexes`; in both cases
clear `mergeJobRunning` and release the job's input snapshot `releaser`. -/
def mergeIndexesJobFinish (st : MgrIdxState) (offset : Nat)
    (inputs merged : List IdxM) (errored : Bool) (releaser : List IdxM) :
    MgrIdxState :=
  let streamsDiff : Int := sumCounts merged - sumCounts inputs
  let packetsDiff : Int := sumPackets merged - sumPackets inputs
  let st1 :=
    if merged.length = 0 ∨ errored = true then
      { st with nUnmergeableIndexes := st.nUnmergeableIndexes + 1 }
    else
      let oldSlice := (st.indexes.drop offset).take inputs.length
      let rel1 := releaseList st.usedIndexes oldSlice
      let used2 := lockList rel1.1 merged
      { st with
        usedIndexes := used2,
        removedFiles := st.removedFiles ++ rel1.2,
        indexes := st.indexes.take offset ++ merged
          ++ st.indexes.drop (offset + inputs.length),
        nUnmergeableIndexes := st.nUnmergeableIndexes + merged.length - 1,
        nStreams := st.nStreams + streamsDiff,
        nPackets := st.nPackets + packetsDiff }
  let st2 := { st1 with mergeJobRunning := false }
  let rel2 := releaseList st2.usedIndexes releaser
  { st2 with usedIndexes := rel2.1, removedFiles := st2.removedFiles ++ rel2.2 }

/-- Counterexample for C5 as stated: with `nUnmergeableIndexes = 1`, merging
`[idx 1, idx 2]` at offset 1 into the single index `idx 3` leaves
`nUnmergeableIndexes = 1`, not `len(mergedResult) - 1 = 0`: the code adds
`len(merged) - 1` instead of assigning it. -/
theorem c5_counterexample :
    (mergeIndexesJobFinish
      ⟨[⟨0, 4, 0⟩, ⟨1, 1, 0⟩, ⟨2, 1, 0⟩], [(⟨0, 4, 0⟩, 1), (⟨1, 1, 0⟩, 1), (⟨2, 1, 0⟩, 1)],
        [], 1, 6, 0, true⟩
      1 [⟨1, 1, 0⟩, ⟨2, 1, 0⟩] [⟨3, 2, 0⟩] false []).nUnmergeableIndexes
      ≠ [(⟨3, 2, 0⟩ : IdxM)].length - 1 := by
  decide

/-- C5 (amended): on completion of a merge job over the index slice starting
at `offset`: if the merge failed or produced no indexes,
`nUnmergeableIndexes` is incremented by one and the index list is unchanged;
otherwise the slice `[offset, offset+len(inputs))` is replaced by the merge
result, the old readers in the slice are released (a reader whose last lock
this drops has its file removed), the merged readers are locked, and
`nUnmergeableIndexes` is *incremented by* `len(mergedResult) − 1` (the claim
said "set to"). -/
theorem c5_merge_finish (st : MgrIdxState) (offset : Nat)
    (inputs merged : List IdxM) (errored : Bool) (releaser : List IdxM)
    (hoff : offset + inputs.length ≤ st.indexes.length) :
    (merged = [] ∨ errored = true →
      (mergeIndexesJobFinish st offset inputs merged errored releaser).nUnmergeableIndexes
          = st.nUnmergeableIndexes + 1
      ∧ (mergeIndexesJobFinish st offset inputs merged errored releaser).indexes
          = st.indexes
      ∧ (mergeIndexesJobFinish st offset inputs merged errored releaser).mergeJobRunning
          = false)
    ∧ (merged ≠ [] → errored = false →
      (mergeIndexesJobFinish st offset inputs merged errored releaser).indexes
          = st.indexes.take offset ++ merged
            ++ st.indexes.drop (offset + inputs.length)
      ∧ (mergeIndexesJobFinish st offset inputs merged errored releaser).nUnmergeableIndexes
          = st.nUnmergeableIndexes + merged.length - 1
      ∧ (mergeIndexesJobFinish st offset inputs merged errored releaser).mergeJobRunning
          = false
      ∧ (∀ x : IdxM, x ∈ (st.indexes.drop offset).take inputs.length →
          ((st.indexes.drop offset).take inputs.length).Nodup →
          x ∉ merged → x ∉ releaser →
          1 ≤ countOf st.usedIndexes x → countOf st.usedIndexes x < 2 ^ 64 →
          countOf (mergeIndexesJobFinish st offset inputs merged errored releaser).usedIndexes x
              = countOf st.usedIndexes x - 1
          ∧ (x ∈ (mergeIndexesJobFinish st offset inputs merged errored releaser).removedFiles
              ↔ x ∈ st.removedFiles ∨ countOf st.usedIndexes x = 1))
      ∧ (∀ y : IdxM, y ∈ merged → merged.Nodup →
          y ∉ (st.indexes.drop offset).take inputs.length → y ∉ releaser →
          countOf st.usedIndexes y + 1 < 2 ^ 64 →
          countOf (mergeIndexesJobFinish st offset inputs merged errored releaser).usedIndexes y
              = countOf st.usedIndexes y + 1)) := by
  constructor
  · intro hfail
    have hcond : merged.length = 0 ∨ errored = true := by
      rcases hfail with h | h
      · exact Or.inl (by simp [h])
      · exact Or.inr h
    simp only [mergeIndexesJobFinish, if_pos hcond]
    exact ⟨by trivial, by trivial, by trivial⟩
  · intro hne herr
    have hcond : ¬ (merged.length = 0 ∨ errored = true) := by
      rintro (h | h)
      · exact hne (List.length_eq_zero.mp h)
      · rw [herr] at h
        cases h
    simp only [mergeIndexesJobFinish, if_neg hcond, releaseList]
    refine ⟨by trivial, by trivial, by trivial, ?_, ?_⟩
    · intro x hmem hnd hnm hnr h1 h2
      have hrel1 := releaseFold_mem ((st.indexes.drop offset).take inputs.length)
        st.usedIndexes [] x hmem hnd h1 h2
      have hlock : countOf (lockList
          (((st.indexes.drop offset).take inputs.length).foldl releaseOne
            (st.usedIndexes, [])).1 merged) x
          = countOf st.usedIndexes x - 1 := by
        rw [countOf_lockList_not_mem _ _ _ hnm]
        exact hrel1.1
      have hrel2 := releaseFold_not_mem releaser
        (lockList (((st.indexes.drop offset).take inputs.length).foldl releaseOne
          (st.usedIndexes, [])).1 merged) [] x hnr
      constructor
      · rw [hrel2.1, hlock]
      · constructor
        · intro hx
          rcases List.mem_append.mp hx with hx | hx
          · rcases List.mem_append.mp hx with hx | hx
            · exact Or.inl hx
            · exact Or.inr ((hrel1.2.mp hx).resolve_left (fun h => by cases h))
          · exact absurd (hrel2.2.mp hx) (List.not_mem_nil x)
        · rintro (hx | hx)
          · exact List.mem_append.mpr (Or.inl (List.mem_append.mpr (Or.inl hx)))
          · exact List.mem_append.mpr
              (Or.inl (List.mem_append.mpr (Or.inr (hrel1.2.mpr (Or.inr hx)))))
    · intro y hmem hnd hns hnr hb
      have hrel1 := releaseFold_not_mem
        ((st.indexes.drop offset).take inputs.length) st.usedIndexes [] y hns
      have hlock : countOf (lockList
          (((st.indexes.drop offset).take inputs.length).foldl releaseOne
            (st.usedIndexes, [])).1 merged) y
          = countOf st.usedIndexes y + 1 := by
        rw [countOf_lockList_mem _ _ _ hmem hnd (by rw [hrel1.1]; exact hb)]
        rw [hrel1.1]
      have hrel2 := releaseFold_not_mem releaser
        (lockList (((st.indexes.drop offset).take inputs.length).foldl releaseOne
          (st.usedIndexes, [])).1 merged) [] y hnr
      rw [hrel2.1, hlock]

/-- Witness for C5 at a concrete state: merging indexes 1 and 2 (both with a
single lock) at offset 1 into index 3: the slice is replaced, both old
readers' files are removed, the merged reader is locked once, and
`nUnmergeableIndexes` stays `0 + 1 - 1 = 0`. -/
theorem c5_merge_finish_witness :
    (mergeIndexesJobFinish
      ⟨[⟨0, 4, 0⟩, ⟨1, 1, 0⟩, ⟨2, 1, 0⟩],
        [(⟨0, 4, 0⟩, 1), (⟨1, 1, 0⟩, 1), (⟨2, 1, 0⟩, 1)], [], 0, 6, 0, true⟩
      1 [⟨1, 1, 0⟩, ⟨2, 1, 0⟩] [⟨3, 2, 0⟩] false []).indexes
      = [⟨0, 4, 0⟩, ⟨3, 2, 0⟩]
    ∧ (mergeIndexesJobFinish
      ⟨[⟨0, 4, 0⟩, ⟨1, 1, 0⟩, ⟨2, 1, 0⟩],
        [(⟨0, 4, 0⟩, 1), (⟨1, 1, 0⟩, 1), (⟨2, 1, 0⟩, 1)], [], 0, 6, 0, true⟩
      1 [⟨1, 1, 0⟩, ⟨2, 1, 0⟩] [⟨3, 2, 0⟩] false []).nUnmergeableIndexes = 0
    ∧ (⟨1, 1, 0⟩ : IdxM) ∈ (mergeIndexesJobFinish
      ⟨[⟨0, 4, 0⟩, ⟨1, 1, 0⟩, ⟨2, 1, 0⟩],
        [(⟨0, 4, 0⟩, 1), (⟨1, 1, 0⟩, 1), (⟨2, 1, 0⟩, 1)], [], 0, 6, 0, true⟩
      1 [⟨1, 1, 0⟩, ⟨2, 1, 0⟩] [⟨3, 2, 0⟩] false []).removedFiles
    ∧ countOf (mergeIndexesJobFinish
      ⟨[⟨0, 4, 0⟩, ⟨1, 1, 0⟩, ⟨2, 1, 0⟩],
        [(⟨0, 4, 0⟩, 1), (⟨1, 1, 0⟩, 1), (⟨2, 1, 0⟩, 1)], [], 0, 6, 0, true⟩
      1 [⟨1, 1, 0⟩, ⟨2, 1, 0⟩] [⟨3, 2, 0⟩] false []).usedIndexes ⟨3, 2, 0⟩ = 1 := by
  have h := (c5_merge_finish
    ⟨[⟨0, 4, 0⟩, ⟨1, 1, 0⟩, ⟨2, 1, 0⟩],
      [(⟨0, 4, 0⟩, 1), (⟨1, 1, 0⟩, 1), (⟨2, 1, 0⟩, 1)], [], 0, 6, 0, true⟩
    1 [⟨1, 1, 0⟩, ⟨2, 1, 0⟩] [⟨3, 2, 0⟩] false [] (by decide)).2
    (by decide) rfl
  refine ⟨h.1.trans (by decide), h.2.1.trans (by decide), ?_, ?_⟩
  · have hx := h.2.2.2.1 ⟨1, 1, 0⟩ (by decide) (by decide) (by decide) (by decide)
      (by decide) (by decide)
    exact hx.2.mpr (Or.inr (by decide))
  · have hy := h.2.2.2.2 ⟨3, 2, 0⟩ (by decide) (by decide) (by decide) (by decide)
      (by decide)
    rw [hy]
    decide

/-! ## Tag registry: uncertainty inheritance and invalidation
(Manager.inheritTagUncertainty, Manager.invalidateTags)

The Go tag map is modelled as an association list; `mgr.tags[tn] = ti` is an
in-place replacement of the entry. Go's map iteration order is unspecified;
the model fixes the list order, which is immaterial for the proved result
(the inherited values are order-independent on an acyclic graph). -/

/-- The names of a tag map, in model order. -/
def tagNames (tags : List (String × Tag)) : List String :=
  tags.map Prod.fst

/-- Go map lookup `mgr.tags[n]`. -/
def lookupTag : List (String × Tag) → String → Option Tag
  | [], _ => none
  | p :: rest, n => if p.1 = n then some p.2 else lookupTag rest n

/-- Go map store `mgr.tags[n] = t` for a present key. -/
def setTagEntry (tags : List (String × Tag)) (n : String) (t : Tag) :
    List (String × Tag) :=
  tags.map (fun p => if p.1 = n then (p.1, t) else p)

/-- `mgr.tags[rtn].Uncertain` (every referenced tag exists in reachable
states; a missing name reads as the empty bitmask). -/
def uncertainOf (tags : List (String × Tag)) (n : String) : Finset Nat :=
  ((lookupTag tags n).map Tag.uncertain).getD ∅

/-- OR the `Uncertain` sets of the named tags into `u` (the loop
`for _, rtn := range MainTags: ti.Uncertain.Or(mgr.tags[rtn].Uncertain)`). -/
def orUncertainOf (tags : List (String × Tag)) (refs : List String)
    (u : Finset Nat) : Finset Nat :=
  refs.foldl (fun u rtn => u ∪ uncertainOf tags rtn) u

/-- The body of `inheritTagUncertainty` for one tag whose referenced tags are
all resolved: if some subquery-referenced tag has non-empty `Uncertain`, the
tag is fully invalidated to `allStreams`; otherwise the `Uncertain` sets of
the main-referenced tags are OR-ed into its own. -/
def inheritOne (allStreams : Finset Nat) (tags : List (String × Tag)) (t : Tag) :
    Tag :=
  if ∃ rtn ∈ t.features.subQueryTags, ¬ uncertainOf tags rtn = ∅ then
    { t with uncertain := allStreams }
  else
    { t with uncertain := orUncertainOf tags t.features.mainTags t.uncertain }

/-- One pass of the `inheritTagUncertainty` loop over the given name order:
an unresolved tag whose referenced tags are all resolved is marked resolved
and (when it has referenced tags at all) updated in the map, visible to later
names of the same pass. -/
def inheritPass (allStreams : Finset Nat) :
    List String → List (String × Tag) → List String →
      List (String × Tag) × List String
  | [], tags, resolved => (tags, resolved)
  | n :: ns, tags, resolved =>
    match lookupTag tags n with
    | none => inheritPass allStreams ns tags resolved
    | some t =>
      if n ∈ resolved then inheritPass allStreams ns tags resolved
      else if ∀ rtn ∈ referencedTags t, rtn ∈ resolved then
        let tags2 :=
          if t.features.mainTags = [] ∧ t.features.subQueryTags = [] then tags
          else setTagEntry tags n (inheritOne allStreams tags t)
        inheritPass allStreams ns tags2 (n :: resolved)
      else inheritPass allStreams ns tags resolved

/-- The outer `for len(resolvedTags) != len(mgr.tags)` loop.  The Go loop
terminates only on acyclic reference graphs; `tags.length + 1` passes always
suffice then, so the fuelled model agrees with every terminating run. -/
def inheritLoop (allStreams : Finset Nat) :
    Nat → List (String × Tag) → List String → List (String × Tag)
  | 0, tags, _ => tags
  | fuel + 1, tags, resolved =>
    if resolved.length = tags.length then tags
    else
      let pr := inheritPass allStreams (tagNames tags) tags resolved
      inheritLoop allStreams fuel pr.1 pr.2

/-- `Manager.inheritTagUncertainty`. -/
def inheritTagUncertainty (allStreams : Finset Nat)
    (tags : List (String × Tag)) : List (String × Tag) :=
  inheritLoop allStreams (tags.length + 1) tags []

/-- `SubQueryFeatures != 0`: the tag uses some subquery filter feature. -/
def anySubQueryFeature (f : FeatureSet) : Bool :=
  f.subID || f.subData || f.subTimeAbs || f.subTimeRel

/-- `MainFeatures &^ query.FeatureFilterID != 0`: some main feature beyond
the id filter (the feature set has exactly the four filter kinds). -/
def mainBeyondID (f : FeatureSet) : Bool :=
  f.mainData || f.mainTimeAbs || f.mainTimeRel

/-- `MainFeatures & (FeatureFilterData|FeatureFilterTimeAbsolute|
FeatureFilterTimeRelative) != 0`: a data or time-based main predicate. -/
def mainDataOrTime (f : FeatureSet) : Bool :=
  f.mainData || f.mainTimeAbs || f.mainTimeRel

/-- Per-tag part of `Manager.invalidateTags`. -/
def invalidateTagOne (allStreams updatedStreams addedStreams : Finset Nat)
    (t : Tag) : Tag :=
  if anySubQueryFeature t.features then { t with uncertain := allStreams }
  else if mainBeyondID t.features = false then t
  else
    let u := t.uncertain ∪ addedStreams
    { t with uncertain :=
        if mainDataOrTime t.features then u ∪ updatedStreams else u }

/-- `Manager.invalidateTags(updatedStreams, addedStreams)`: per-tag
invalidation followed by `inheritTagUncertainty`. -/
def invalidateTags (allStreams updatedStreams addedStreams : Finset Nat)
    (tags : List (String × Tag)) : List (String × Tag) :=
  inheritTagUncertainty allStreams
    (tags.map (fun p => (p.1, invalidateTagOne allStreams updatedStreams addedStreams p.2)))

/-! ### The claim's reading of the two phases (spec wording) -/

/-- The claim's invalidation formula: subquery feature → `allStreams`;
main features only the id filter → unchanged; otherwise
`uncertain ∪ addedStreams`, additionally `∪ updatedStreams` for a data or
time-based predicate. -/
def claimInvalidate (allStreams updatedStreams addedStreams : Finset Nat)
    (t : Tag) : Tag :=
  if anySubQueryFeature t.features then { t with uncertain := allStreams }
  else if mainBeyondID t.features = false then t
  else
    { t with uncertain := (t.uncertain ∪ addedStreams)
        ∪ (if mainDataOrTime t.features then updatedStreams else ∅) }

/-- The claim's inheritance formula, reading each referenced tag's uncertain
set in the *final* (post-inheritance) map: a tag with no referenced tags is
unchanged; a tag with a subquery-referenced tag of non-empty uncertain gets
`allStreams`; otherwise the old value united with the main-referenced tags'
uncertain sets. -/
def claimInherit (allStreams : Finset Nat) (final : List (String × Tag))
    (t : Tag) : Tag :=
  if t.features.mainTags = [] ∧ t.features.subQueryTags = [] then t
  else if ∃ rtn ∈ t.features.subQueryTags, ¬ uncertainOf final rtn = ∅ then
    { t with uncertain := allStreams }
  else
    { t with uncertain := orUncertainOf final t.features.mainTags t.uncertain }

/-- Topological order of a tag list: every entry references only names of
earlier entries (plus the accumulated `seen` names). -/
def topoFrom (seen : List String) : List (String × Tag) → Prop
  | [] => True
  | p :: rest =>
    (∀ rtn ∈ referencedTags p.2, rtn ∈ seen) ∧ topoFrom (seen ++ [p.1]) rest

instance topoFromDecidable (seen : List String) :
    (l : List (String × Tag)) → Decidable (topoFrom seen l)
  | [] => .isTrue trivial
  | p :: rest =>
    haveI := topoFromDecidable (seen ++ [p.1]) rest
    inferInstanceAs (Decidable ((∀ rtn ∈ referencedTags p.2, rtn ∈ seen)
      ∧ topoFrom (seen ++ [p.1]) rest))

/-- A tag map in topological order of the `referencedTags` graph. -/
def topoSorted (tags : List (String × Tag)) : Prop :=
  topoFrom [] tags

instance (tags : List (String × Tag)) : Decidable (topoSorted tags) :=
  topoFromDecidable [] tags

/-! ### Association-list lemmas for the tag map -/

@[simp]
theorem tagNames_nil : tagNames [] = [] := rfl

@[simp]
theorem tagNames_cons (p : String × Tag) (rest : List (String × Tag)) :
    tagNames (p :: rest) = p.1 :: tagNames rest := rfl

theorem tagNames_append (l₁ l₂ : List (String × Tag)) :
    tagNames (l₁ ++ l₂) = tagNames l₁ ++ tagNames l₂ := by
  simp [tagNames]

theorem lookupTag_mem (tags : List (String × Tag)) (n : String) (t : Tag)
    (h : lookupTag tags n = some t) : (n, t) ∈ tags := by
  induction tags with
  | nil => cases h
  | cons p rest ih =>
    obtain ⟨a, b⟩ := p
    rw [lookupTag] at h
    by_cases hp : a = n
    · subst hp
      rw [if_pos rfl] at h
      cases h
      exact List.mem_cons_self _ _
    · rw [if_neg hp] at h
      exact List.mem_cons_of_mem _ (ih h)

theorem lookupTag_eq_none (tags : List (String × Tag)) (n : String) :
    lookupTag tags n = none ↔ n ∉ tagNames tags := by
  induction tags with
  | nil => simp [lookupTag]
  | cons p rest ih =>
    rw [lookupTag]
    by_cases hp : p.1 = n
    · simp [hp]
    · rw [if_neg hp, ih]
      simp only [tagNames_cons, List.mem_cons]
      constructor
      · intro h hmem
        rcases hmem with h1 | h2
        · exact hp h1.symm
        · exact h h2
      · exact fun h hm => h (Or.inr hm)

theorem lookupTag_isSome (tags : List (String × Tag)) (n : String)
    (h : n ∈ tagNames tags) : (lookupTag tags n).isSome := by
  cases hlk : lookupTag tags n with
  | none => exact absurd h ((lookupTag_eq_none tags n).mp hlk)
  | some t => rfl

theorem lookupTag_append (l₁ l₂ : List (String × Tag)) (n : String) :
    lookupTag (l₁ ++ l₂) n =
      match lookupTag l₁ n with
      | some t => some t
      | none => lookupTag l₂ n := by
  induction l₁ with
  | nil => rfl
  | cons p rest ih =>
    rw [List.cons_append, lookupTag, lookupTag]
    by_cases hp : p.1 = n
    · rw [if_pos hp, if_pos hp]
    · rw [if_neg hp, if_neg hp, ih]

theorem lookupTag_append_left (l₁ l₂ : List (String × Tag)) (n : String)
    (h : n ∈ tagNames l₁) : lookupTag (l₁ ++ l₂) n = lookupTag l₁ n := by
  rw [lookupTag_append]
  cases hlk : lookupTag l₁ n with
  | none => exact absurd h ((lookupTag_eq_none l₁ n).mp hlk)
  | some t => rfl

theorem lookupTag_append_right (l₁ l₂ : List (String × Tag)) (n : String)
    (h : n ∉ tagNames l₁) : lookupTag (l₁ ++ l₂) n = lookupTag l₂ n := by
  rw [lookupTag_append, (lookupTag_eq_none l₁ n).mpr h]

theorem tagNames_setTagEntry (tags : List (String × Tag)) (n : String) (t : Tag) :
    tagNames (setTagEntry tags n t) = tagNames tags := by
  induction tags with
  | nil => rfl
  | cons p rest ih =>
    show tagNames ((if p.1 = n then (p.1, t) else p) :: setTagEntry rest n t) = _
    by_cases hp : p.1 = n <;> simp [hp, ih]

theorem length_setTagEntry (tags : List (String × Tag)) (n : String) (t : Tag) :
    (setTagEntry tags n t).length = tags.length :=
  List.length_map tags _

theorem lookupTag_setTagEntry (tags : List (String × Tag)) (n : String) (t : Tag)
    (m : String) :
    lookupTag (setTagEntry tags n t) m =
      if n = m then (lookupTag tags n).map (fun _ => t) else lookupTag tags m := by
  induction tags with
  | nil =>
    by_cases h : n = m <;> simp [setTagEntry, lookupTag, h]
  | cons p rest ih =>
    show lookupTag ((if p.1 = n then (p.1, t) else p) :: setTagEntry rest n t) m = _
    by_cases hp : p.1 = n <;> by_cases hm : n = m
    · simp [lookupTag, hp, hm, ih]
    · simp [lookupTag, hp, hm, ih]
    · subst hm
      simp [lookupTag, hp, ih]
    · simp [lookupTag, hp, hm, ih]

theorem setTagEntry_append (l₁ l₂ : List (String × Tag)) (n : String) (t : Tag) :
    setTagEntry (l₁ ++ l₂) n t = setTagEntry l₁ n t ++ setTagEntry l₂ n t :=
  List.map_append _ _ _

theorem setTagEntry_not_mem (l : List (String × Tag)) (n : String) (t : Tag)
    (h : n ∉ tagNames l) : setTagEntry l n t = l := by
  induction l with
  | nil => rfl
  | cons p rest ih =>
    have hp : ¬ p.1 = n := by
      intro hp
      exact h (by simp [hp])
    show (if p.1 = n then (p.1, t) else p) :: setTagEntry rest n t = p :: rest
    rw [if_neg hp, ih (fun hm => h (by simp [hm]))]

theorem uncertainOf_eq_of_lookup_eq (A B : List (String × Tag)) (n : String)
    (h : lookupTag A n = lookupTag B n) : uncertainOf A n = uncertainOf B n := by
  rw [uncertainOf, uncertainOf, h]

theorem orUncertainOf_congr (A B : List (String × Tag)) (refs : List String)
    (u : Finset Nat) (h : ∀ rtn ∈ refs, uncertainOf A rtn = uncertainOf B rtn) :
    orUncertainOf A refs u = orUncertainOf B refs u := by
  induction refs generalizing u with
  | nil => rfl
  | cons r rest ih =>
    show orUncertainOf A rest (u ∪ uncertainOf A r) = _
    rw [h r (List.mem_cons_self r rest)]
    exact ih _ (fun rtn hm => h rtn (List.mem_cons_of_mem r hm))

theorem inheritOne_congr (allS : Finset Nat) (A B : List (String × Tag)) (t : Tag)
    (h : ∀ rtn ∈ referencedTags t, uncertainOf A rtn = uncertainOf B rtn) :
    inheritOne allS A t = inheritOne allS B t := by
  rw [inheritOne, inheritOne]
  have hsub : (∃ rtn ∈ t.features.subQueryTags, ¬ uncertainOf A rtn = ∅) ↔
      (∃ rtn ∈ t.features.subQueryTags, ¬ uncertainOf B rtn = ∅) := by
    constructor <;> rintro ⟨rtn, hmem, hne⟩ <;> refine ⟨rtn, hmem, ?_⟩
    · rw [← h rtn (List.mem_append_right _ hmem)]
      exact hne
    · rw [h rtn (List.mem_append_right _ hmem)]
      exact hne
  refine if_congr hsub rfl ?_
  rw [orUncertainOf_congr A B t.features.mainTags t.uncertain
    (fun rtn hm => h rtn (List.mem_append_left _ hm))]

theorem claimInherit_congr (allS : Finset Nat) (A B : List (String × Tag)) (t : Tag)
    (h : ∀ rtn ∈ referencedTags t, uncertainOf A rtn = uncertainOf B rtn) :
    claimInherit allS A t = claimInherit allS B t := by
  rw [claimInherit, claimInherit]
  refine if_congr Iff.rfl rfl ?_
  have hsub : (∃ rtn ∈ t.features.subQueryTags, ¬ uncertainOf A rtn = ∅) ↔
      (∃ rtn ∈ t.features.subQueryTags, ¬ uncertainOf B rtn = ∅) := by
    constructor <;> rintro ⟨rtn, hmem, hne⟩ <;> refine ⟨rtn, hmem, ?_⟩
    · rw [← h rtn (List.mem_append_right _ hmem)]
      exact hne
    · rw [h rtn (List.mem_append_right _ hmem)]
      exact hne
  refine if_congr hsub rfl ?_
  rw [orUncertainOf_congr A B t.features.mainTags t.uncertain
    (fun rtn hm => h rtn (List.mem_append_left _ hm))]

theorem claimInherit_eq_inheritOne (allS : Finset Nat)
    (m : List (String × Tag)) (t : Tag)
    (hne : ¬ (t.features.mainTags = [] ∧ t.features.subQueryTags = [])) :
    claimInherit allS m t = inheritOne allS m t := by
  rw [claimInherit, if_neg hne, inheritOne]

theorem inheritOne_as_update (allS : Finset Nat) (tags : List (String × Tag))
    (t : Tag) :
    inheritOne allS tags t = { t with uncertain := (inheritOne allS tags t).uncertain } := by
  rw [inheritOne]
  split <;> rfl

/-! ### Behaviour of the inheritance pass on topologically sorted maps -/

theorem referencedTags_inheritOne (allS : Finset Nat)
    (tags : List (String × Tag)) (t : Tag) :
    referencedTags (inheritOne allS tags t) = referencedTags t := by
  rw [inheritOne]
  split <;> rfl

theorem features_inheritOne (allS : Finset Nat)
    (tags : List (String × Tag)) (t : Tag) :
    (inheritOne allS tags t).features = t.features := by
  rw [inheritOne]
  split <;> rfl

theorem tagNames_inheritPass (allS : Finset Nat) (ns : List String) :
    ∀ (tags : List (String × Tag)) (res : List String),
      tagNames (inheritPass allS ns tags res).1 = tagNames tags := by
  induction ns with
  | nil => intro tags res; rfl
  | cons n ns ih =>
    intro tags res
    rw [inheritPass]
    cases hlk : lookupTag tags n with
    | none =>
      simp only []
      exact ih tags res
    | some t =>
      simp only []
      by_cases hres : n ∈ res
      · rw [if_pos hres]
        exact ih tags res
      · rw [if_neg hres]
        by_cases hall : ∀ rtn ∈ referencedTags t, rtn ∈ res
        · rw [if_pos hall]
          by_cases hrefs0 : t.features.mainTags = [] ∧ t.features.subQueryTags = []
          · rw [if_pos hrefs0]
            exact ih tags _
          · rw [if_neg hrefs0, ih _ _, tagNames_setTagEntry]
        · rw [if_neg hall]
          exact ih tags res

theorem inheritPass_split (allS : Finset Nat) (ns₁ ns₂ : List String) :
    ∀ (tags : List (String × Tag)) (res : List String),
      inheritPass allS (ns₁ ++ ns₂) tags res
        = inheritPass allS ns₂ (inheritPass allS ns₁ tags res).1
            (inheritPass allS ns₁ tags res).2 := by
  induction ns₁ with
  | nil => intro tags res; rfl
  | cons n ns ih =>
    intro tags res
    rw [List.cons_append, inheritPass, inheritPass]
    cases hlk : lookupTag tags n with
    | none => exact ih tags res
    | some t =>
      simp only []
      by_cases hres : n ∈ res
      · simp only [if_pos hres]
        exact ih tags res
      · simp only [if_neg hres]
        by_cases hall : ∀ rtn ∈ referencedTags t, rtn ∈ res
        · simp only [if_pos hall]
          exact ih _ _
        · simp only [if_neg hall]
          exact ih tags res

theorem inheritPass_snoc_tag (allS : Finset Nat) (n : String) (e : Tag)
    (ns : List String) :
    ∀ (tags : List (String × Tag)) (res : List String),
      n ∉ ns →
      (∀ p ∈ tags, n ∉ referencedTags p.2) →
      inheritPass allS ns (tags ++ [(n, e)]) res
        = ((inheritPass allS ns tags res).1 ++ [(n, e)],
           (inheritPass allS ns tags res).2) := by
  induction ns with
  | nil => intro tags res _ _; rfl
  | cons m ns ih =>
    intro tags res hn hrefs
    have hnm : n ≠ m := fun h => hn (h ▸ List.mem_cons_self m ns)
    have hn' : n ∉ ns := fun h => hn (List.mem_cons_of_mem m h)
    have hlkext : lookupTag (tags ++ [(n, e)]) m = lookupTag tags m := by
      rw [lookupTag_append]
      cases hlk : lookupTag tags m with
      | some t => rfl
      | none =>
        show lookupTag [(n, e)] m = none
        rw [lookupTag, if_neg (fun h => hnm h)]
        rfl
    rw [inheritPass, inheritPass, hlkext]
    cases hlk : lookupTag tags m with
    | none => exact ih tags res hn' hrefs
    | some t =>
      simp only []
      by_cases hres : m ∈ res
      · simp only [if_pos hres]
        exact ih tags res hn' hrefs
      · simp only [if_neg hres]
        by_cases hall : ∀ rtn ∈ referencedTags t, rtn ∈ res
        · simp only [if_pos hall]
          have hreft : n ∉ referencedTags t :=
            hrefs (m, t) (lookupTag_mem tags m t hlk)
          have hone : inheritOne allS (tags ++ [(n, e)]) t
              = inheritOne allS tags t := by
            apply inheritOne_congr
            intro rtn hrtn
            have hrne : n ≠ rtn := fun h => hreft (h ▸ hrtn)
            apply uncertainOf_eq_of_lookup_eq
            rw [lookupTag_append]
            cases hlk2 : lookupTag tags rtn with
            | some _ => rfl
            | none =>
              show lookupTag [(n, e)] rtn = none
              rw [lookupTag, if_neg (fun h => hrne h)]
              rfl
          by_cases hrefs0 : t.features.mainTags = [] ∧ t.features.subQueryTags = []
          · simp only [if_pos hrefs0]
            exact ih tags _ hn' hrefs
          · simp only [if_neg hrefs0]
            rw [hone, setTagEntry_append]
            have hsetsingle : setTagEntry [(n, e)] m (inheritOne allS tags t)
                = [(n, e)] := by
              show (if (n, e).1 = m then ((n, e).1, inheritOne allS tags t)
                else (n, e)) :: [] = [(n, e)]
              rw [if_neg (fun h => hnm h)]
            rw [hsetsingle]
            apply ih _ _ hn'
            intro p hp
            rcases List.mem_map.mp hp with ⟨q, hq, hqe⟩
            by_cases hqm : q.1 = m
            · rw [if_pos hqm] at hqe
              rw [← hqe]
              show n ∉ referencedTags (inheritOne allS tags t)
              rw [referencedTags_inheritOne]
              exact hreft
            · rw [if_neg hqm] at hqe
              rw [← hqe]
              exact hrefs q hq
        · simp only [if_neg hall]
          exact ih tags res hn' hrefs

theorem topoFrom_append_elem (l : List (String × Tag)) (p : String × Tag) :
    ∀ seen : List String, topoFrom seen (l ++ [p]) ↔
      topoFrom seen l ∧ ∀ rtn ∈ referencedTags p.2, rtn ∈ seen ++ tagNames l := by
  induction l with
  | nil =>
    intro seen
    show ((∀ rtn ∈ referencedTags p.2, rtn ∈ seen) ∧ True) ↔ _
    simp [topoFrom]
  | cons q rest ih =>
    intro seen
    show ((∀ rtn ∈ referencedTags q.2, rtn ∈ seen)
        ∧ topoFrom (seen ++ [q.1]) (rest ++ [p])) ↔ _
    rw [ih (seen ++ [q.1])]
    show _ ↔ ((∀ rtn ∈ referencedTags q.2, rtn ∈ seen)
        ∧ topoFrom (seen ++ [q.1]) rest) ∧ _
    constructor
    · rintro ⟨h1, h2, h3⟩
      refine ⟨⟨h1, h2⟩, ?_⟩
      intro rtn hrtn
      have := h3 rtn hrtn
      simpa [List.append_assoc] using this
    · rintro ⟨⟨h1, h2⟩, h3⟩
      refine ⟨h1, h2, ?_⟩
      intro rtn hrtn
      have := h3 rtn hrtn
      simpa [List.append_assoc] using this

theorem topoFrom_refs_subset (l : List (String × Tag)) :
    ∀ seen : List String, topoFrom seen l →
      ∀ p ∈ l, ∀ rtn ∈ referencedTags p.2, rtn ∈ seen ++ tagNames l := by
  induction l with
  | nil =>
    intro seen _ p hp
    cases hp
  | cons q rest ih =>
    intro seen h p hp rtn hrtn
    rcases List.mem_cons.mp hp with hpq | hp2
    · subst hpq
      exact List.mem_append_left _ (h.1 rtn hrtn)
    · have := ih (seen ++ [q.1]) h.2 p hp2 rtn hrtn
      simpa [List.append_assoc] using this

/-- The claim's inheritance characterization: every tag of the input map is
present in the output map with the value given by `claimInherit`, which reads
the referenced tags' final uncertain sets. -/
def inheritSpecHolds (allS : Finset Nat)
    (tagsIn tagsOut : List (String × Tag)) : Prop :=
  ∀ n t, lookupTag tagsIn n = some t →
    lookupTag tagsOut n = some (claimInherit allS tagsOut t)

theorem inheritPass_topo (allS : Finset Nat) :
    ∀ tags : List (String × Tag), (tagNames tags).Nodup → topoSorted tags →
      (inheritPass allS (tagNames tags) tags []).2 = (tagNames tags).reverse
      ∧ inheritSpecHolds allS tags (inheritPass allS (tagNames tags) tags []).1 := by
  intro tags
  induction tags using List.reverseRecOn with
  | nil =>
    intro _ _
    exact ⟨rfl, fun n t h => by cases h⟩
  | append_singleton init p ih =>
    obtain ⟨n, t⟩ := p
    intro hnd htopo
    have hnames : tagNames (init ++ [(n, t)]) = tagNames init ++ [n] := by
      rw [tagNames_append]
      rfl
    rw [hnames] at hnd
    have hnd' : (tagNames init).Nodup := (List.nodup_append.mp hnd).1
    have hnmem : n ∉ tagNames init := by
      intro hmem
      exact (List.nodup_append.mp hnd).2.2 hmem (List.mem_singleton_self n)
    have htopo2 := (topoFrom_append_elem init (n, t) []).mp htopo
    have htopoinit : topoSorted init := htopo2.1
    have hrefst : ∀ rtn ∈ referencedTags t, rtn ∈ tagNames init := by
      intro rtn hrtn
      simpa using htopo2.2 rtn hrtn
    have hrefs_init : ∀ p ∈ init, n ∉ referencedTags p.2 := by
      intro p hp hmem
      have := topoFrom_refs_subset init [] htopoinit p hp _ hmem
      simp only [List.nil_append] at this
      exact hnmem this
    obtain ⟨hres_ih, hspec_ih⟩ := ih hnd' htopoinit
    have hOnames : tagNames (inheritPass allS (tagNames init) init []).1
        = tagNames init := tagNames_inheritPass allS (tagNames init) init []
    rw [hnames, inheritPass_split allS (tagNames init) [n] (init ++ [(n, t)]) [],
      inheritPass_snoc_tag allS n t (tagNames init) init [] hnmem hrefs_init]
    dsimp only
    have hnmemO : n ∉ tagNames (inheritPass allS (tagNames init) init []).1 := by
      rw [hOnames]
      exact hnmem
    have hlk : lookupTag ((inheritPass allS (tagNames init) init []).1 ++ [(n, t)]) n
        = some t := by
      rw [lookupTag_append_right _ _ _ hnmemO]
      show (if (n, t).1 = n then some (n, t).2 else lookupTag [] n) = some t
      rw [if_pos rfl]
    have hRmem : ∀ m, m ∈ (inheritPass allS (tagNames init) init []).2
        ↔ m ∈ tagNames init := by
      intro m
      rw [hres_ih, List.mem_reverse]
    have hnR : n ∉ (inheritPass allS (tagNames init) init []).2 :=
      fun h => hnmem ((hRmem n).mp h)
    have hallR : ∀ rtn ∈ referencedTags t,
        rtn ∈ (inheritPass allS (tagNames init) init []).2 :=
      fun rtn h => (hRmem rtn).mpr (hrefst rtn h)
    rw [inheritPass]
    simp only [hlk, if_neg hnR, if_pos hallR]
    have hresgoal : (tagNames init ++ [n]).reverse
        = n :: (inheritPass allS (tagNames init) init []).2 := by
      rw [List.reverse_append, hres_ih]
      rfl
    by_cases hrefs0 : t.features.mainTags = [] ∧ t.features.subQueryTags = []
    · simp only [if_pos hrefs0]
      rw [inheritPass]
      dsimp only
      refine ⟨hresgoal.symm, ?_⟩
      intro m s hms
      by_cases hm : m ∈ tagNames init
      · have hlkinit : lookupTag init m = some s := by
          rw [lookupTag_append_left _ _ _ hm] at hms
          exact hms
        have hO1 := hspec_ih m s hlkinit
        have hmO : m ∈ tagNames (inheritPass allS (tagNames init) init []).1 := by
          rw [hOnames]
          exact hm
        rw [lookupTag_append_left _ _ _ hmO, hO1]
        congr 1
        apply claimInherit_congr
        intro rtn hrtn
        have hrtninit : rtn ∈ tagNames init := by
          have := topoFrom_refs_subset init [] htopoinit (m, s)
            (lookupTag_mem init m s hlkinit) rtn hrtn
          simpa using this
        apply uncertainOf_eq_of_lookup_eq
        rw [lookupTag_append_left _ _ _ (by rw [hOnames]; exact hrtninit)]
      · have hmn : m = n ∧ s = t := by
          rw [lookupTag_append_right _ _ _ hm] at hms
          by_cases hnm2 : n = m
          · subst hnm2
            refine ⟨rfl, ?_⟩
            rw [lookupTag, if_pos rfl] at hms
            exact (Option.some.inj hms).symm
          · rw [lookupTag, if_neg hnm2, lookupTag] at hms
            cases hms
        obtain ⟨rfl, rfl⟩ := hmn
        rw [lookupTag_append_right _ _ _ hnmemO]
        rw [lookupTag, if_pos rfl]
        congr 1
        rw [claimInherit, if_pos hrefs0]
    · simp only [if_neg hrefs0]
      have hset : setTagEntry ((inheritPass allS (tagNames init) init []).1 ++ [(n, t)])
          n (inheritOne allS ((inheritPass allS (tagNames init) init []).1 ++ [(n, t)]) t)
          = (inheritPass allS (tagNames init) init []).1
            ++ [(n, inheritOne allS
                ((inheritPass allS (tagNames init) init []).1 ++ [(n, t)]) t)] := by
        rw [setTagEntry_append, setTagEntry_not_mem _ _ _ hnmemO]
        show _ ++ (if (n, t).1 = n then _ else (n, t)) :: [] = _
        rw [if_pos rfl]
      rw [hset, inheritPass]
      dsimp only
      refine ⟨hresgoal.symm, ?_⟩
      intro m s hms
      have huncong : ∀ rtn ∈ tagNames init,
          lookupTag ((inheritPass allS (tagNames init) init []).1
              ++ [(n, inheritOne allS
                ((inheritPass allS (tagNames init) init []).1 ++ [(n, t)]) t)]) rtn
            = lookupTag (inheritPass allS (tagNames init) init []).1 rtn := by
        intro rtn hrtn
        rw [lookupTag_append_left _ _ _ (by rw [hOnames]; exact hrtn)]
      by_cases hm : m ∈ tagNames init
      · have hlkinit : lookupTag init m = some s := by
          rw [lookupTag_append_left _ _ _ hm] at hms
          exact hms
        have hO1 := hspec_ih m s hlkinit
        have hmO : m ∈ tagNames (inheritPass allS (tagNames init) init []).1 := by
          rw [hOnames]
          exact hm
        rw [lookupTag_append_left _ _ _ hmO, hO1]
        congr 1
        apply claimInherit_congr
        intro rtn hrtn
        have hrtninit : rtn ∈ tagNames init := by
          have := topoFrom_refs_subset init [] htopoinit (m, s)
            (lookupTag_mem init m s hlkinit) rtn hrtn
          simpa using this
        exact uncertainOf_eq_of_lookup_eq _ _ _ (huncong rtn hrtninit).symm
      · have hmn : m = n ∧ s = t := by
          rw [lookupTag_append_right _ _ _ hm] at hms
          by_cases hnm2 : n = m
          · subst hnm2
            refine ⟨rfl, ?_⟩
            rw [lookupTag, if_pos rfl] at hms
            exact (Option.some.inj hms).symm
          · rw [lookupTag, if_neg hnm2, lookupTag] at hms
            cases hms
        obtain ⟨rfl, rfl⟩ := hmn
        rw [lookupTag_append_right _ _ _ hnmemO, lookupTag, if_pos rfl]
        congr 1
        rw [claimInherit_eq_inheritOne allS _ _ hrefs0]
        apply inheritOne_congr
        intro rtn hrtn
        have hrtninit := hrefst rtn hrtn
        apply uncertainOf_eq_of_lookup_eq
        rw [lookupTag_append_left _ _ _ (by rw [hOnames]; exact hrtninit),
          huncong rtn hrtninit]

theorem inheritTagUncertainty_topo (allS : Finset Nat)
    (tags : List (String × Tag)) (hnd : (tagNames tags).Nodup)
    (htopo : topoSorted tags) :
    inheritTagUncertainty allS tags = (inheritPass allS (tagNames tags) tags []).1 := by
  rw [inheritTagUncertainty]
  cases tags with
  | nil => rfl
  | cons q rest =>
    have hlen1 : (inheritPass allS (tagNames (q :: rest)) (q :: rest) []).2.length
        = (q :: rest).length := by
      rw [(inheritPass_topo allS (q :: rest) hnd htopo).1, List.length_reverse]
      exact List.length_map _ _
    have hlen2 : (inheritPass allS (tagNames (q :: rest)) (q :: rest) []).1.length
        = (q :: rest).length := by
      have := tagNames_inheritPass allS (tagNames (q :: rest)) (q :: rest) []
      have h2 := congrArg List.length this
      rw [tagNames, tagNames, List.length_map, List.length_map] at h2
      exact h2
    show inheritLoop allS ((q :: rest).length + 1) (q :: rest) [] = _
    rw [inheritLoop, if_neg (by simp)]
    dsimp only
    show inheritLoop allS (rest.length + 1) _ _ = _
    rw [inheritLoop, if_pos (by rw [hlen1, hlen2])]

theorem lookupTag_map (f : Tag → Tag) (tags : List (String × Tag)) (n : String) :
    lookupTag (tags.map (fun p => (p.1, f p.2))) n = (lookupTag tags n).map f := by
  induction tags with
  | nil => rfl
  | cons p rest ih =>
    show lookupTag ((p.1, f p.2) :: rest.map _) n = _
    rw [lookupTag, lookupTag]
    by_cases hp : p.1 = n
    · rw [if_pos hp, if_pos hp]
      rfl
    · rw [if_neg hp, if_neg hp, ih]

theorem topoFrom_map (f : Tag → Tag)
    (hf : ∀ t, referencedTags (f t) = referencedTags t)
    (l : List (String × Tag)) :
    ∀ seen, topoFrom seen (l.map (fun p => (p.1, f p.2))) ↔ topoFrom seen l := by
  induction l with
  | nil => intro seen; exact Iff.rfl
  | cons p rest ih =>
    intro seen
    have h1 : topoFrom seen ((p :: rest).map (fun q => (q.1, f q.2)))
        = ((∀ rtn ∈ referencedTags (f p.2), rtn ∈ seen)
          ∧ topoFrom (seen ++ [p.1]) (rest.map (fun q => (q.1, f q.2)))) := rfl
    have h2 : topoFrom seen (p :: rest)
        = ((∀ rtn ∈ referencedTags p.2, rtn ∈ seen)
          ∧ topoFrom (seen ++ [p.1]) rest) := rfl
    rw [h1, h2, hf p.2, ih (seen ++ [p.1])]

theorem referencedTags_invalidateTagOne (allS upd add : Finset Nat) (t : Tag) :
    referencedTags (invalidateTagOne allS upd add t) = referencedTags t := by
  rw [invalidateTagOne]
  split
  · rfl
  · split
    · rfl
    · rfl

theorem claimInvalidate_eq_invalidateTagOne (allS upd add : Finset Nat) (t : Tag) :
    claimInvalidate allS upd add t = invalidateTagOne allS upd add t := by
  rw [claimInvalidate, invalidateTagOne]
  refine if_congr Iff.rfl rfl (if_congr Iff.rfl rfl ?_)
  dsimp only
  by_cases hc : mainDataOrTime t.features = true
  · simp only [if_pos hc]
  · simp only [if_neg hc, Finset.union_empty]

/-! ## Claim C1: invalidateTags and uncertainty inheritance -/

/-- C1: after `invalidateTags(updatedStreams, addedStreams)` on a tag map in
topological order of the `referencedTags` graph (which `AddTag` maintains),
every tag holds the value described by the spec: the invalidation formula
(`claimInvalidate`: subquery feature → `allStreams`; id-only main features →
unchanged; otherwise `∪ addedStreams`, and `∪ updatedStreams` for data/time
predicates) followed by the inheritance formula (`claimInherit`: no
referenced tags → unchanged; a subquery-referenced tag with non-empty
uncertain → `allStreams`; otherwise the union with the main-referenced tags'
final uncertain sets). -/
theorem c1_invalidate_inherit (allS upd add : Finset Nat)
    (tags : List (String × Tag)) (hnd : (tagNames tags).Nodup)
    (htopo : topoSorted tags) :
    ∀ n t, lookupTag tags n = some t →
      lookupTag (invalidateTags allS upd add tags) n
        = some (claimInherit allS (invalidateTags allS upd add tags)
            (claimInvalidate allS upd add t)) := by
  intro n t h
  have hnames : tagNames (tags.map
      (fun p => (p.1, invalidateTagOne allS upd add p.2))) = tagNames tags := by
    simp [tagNames]
  have hndmid : (tagNames (tags.map
      (fun p => (p.1, invalidateTagOne allS upd add p.2)))).Nodup := by
    rw [hnames]
    exact hnd
  have htopomid : topoSorted (tags.map
      (fun p => (p.1, invalidateTagOne allS upd add p.2))) :=
    (topoFrom_map _ (referencedTags_invalidateTagOne allS upd add) tags []).mpr htopo
  have hlkmid : lookupTag (tags.map
      (fun p => (p.1, invalidateTagOne allS upd add p.2))) n
      = some (invalidateTagOne allS upd add t) := by
    rw [lookupTag_map, h]
    rfl
  have heq : invalidateTags allS upd add tags
      = (inheritPass allS (tagNames (tags.map
          (fun p => (p.1, invalidateTagOne allS upd add p.2))))
        (tags.map (fun p => (p.1, invalidateTagOne allS upd add p.2))) []).1 := by
    rw [invalidateTags]
    exact inheritTagUncertainty_topo allS _ hndmid htopomid
  have hspec := (inheritPass_topo allS _ hndmid htopomid).2 n _ hlkmid
  rw [heq, hspec, claimInvalidate_eq_invalidateTagOne]

/-- The two-tag example map used by the C1 witness: `tag/a` (data filter, no
references) and `tag/b` (data filter, main reference to `tag/a`). -/
def c1ExTags : List (String × Tag) :=
  [("tag/a", ⟨∅, ∅, ⟨false, true, false, false, false, false, false, false, [], []⟩,
      "data:a", "", []⟩),
   ("tag/b", ⟨∅, ∅, ⟨false, true, false, false, false, false, false, false, ["tag/a"], []⟩,
      "data:b", "", []⟩)]

/-- Witness for C1: the theorem applied to the two-tag example map after a
pcap load adding stream 2 and updating stream 0, with the nodup and
topological-order hypotheses discharged by computation. -/
theorem c1_invalidate_inherit_witness :
    lookupTag (invalidateTags {0, 1, 2} {0} {2} c1ExTags) "tag/b"
      = some (claimInherit {0, 1, 2} (invalidateTags {0, 1, 2} {0} {2} c1ExTags)
          (claimInvalidate {0, 1, 2} {0} {2}
            ⟨∅, ∅, ⟨false, true, false, false, false, false, false, false, ["tag/a"], []⟩,
              "data:b", "", []⟩)) := by
  exact c1_invalidate_inherit {0, 1, 2} {0} {2} c1ExTags (by decide) (by decide)
    "tag/b" _ rfl

/-! ## Claims C6–C8: AddTag, UpdateTag and the mark invariant

The `query` package (`query.Parse`, `Conditions.Features()`,
`Conditions.StreamIDs()`) is not part of the sources; the parse result is
modelled from the spec as a record and the parser itself is left abstract:
the embedded operations take the parse result as an argument. -/

/-- `strings.HasPrefix(s, pre)` on the underlying character lists. -/
def goHasPre : List Char → List Char → Bool
  | _, [] => true
  | [], _ :: _ => false
  | c :: cs, d :: ds => if c = d then goHasPre cs ds else false

/-- Modelled from the spec: the result of `query.Parse` as the manager
consumes it — the feature set of the parsed conditions, whether a grouping
clause is present, and the explicit id-set when the conditions reduce to a
pure id filter (what `Conditions.StreamIDs` reports), `none` otherwise. -/
structure ParsedQuery where
  features : FeatureSet
  grouping : Bool
  idSet : Option (Finset Nat)
deriving DecidableEq

/-- Modelled from the spec: `q.Conditions.StreamIDs(next)` returns the
explicit id-set of a pure id filter (the `next` argument only resolves
negative ids, which the claims do not use). -/
def streamIDsOf (q : ParsedQuery) (next : Nat) : Option (Finset Nat) :=
  q.idSet

/-- `strings.HasPrefix(name, "mark/") || strings.HasPrefix(name, "generated/")`. -/
def isMarkName (name : String) : Bool :=
  goHasPre name.data "mark/".data || goHasPre name.data "generated/".data

/-- `strings.HasPrefix(name, "tag/") || strings.HasPrefix(name, "service/")`. -/
def isTagOrService (name : String) : Bool :=
  goHasPre name.data "tag/".data || goHasPre name.data "service/".data

/-- `strings.SplitN(name, "/", 2)[1]`: the characters after the first slash. -/
def afterSlash : List Char → List Char
  | [] => []
  | c :: cs => if c = '/' then cs else afterSlash cs

/-- The `unknown referenced tag` loop: the first referenced name missing
from the tag map, if any. -/
def firstUnknownRef (tags : List (String × Tag)) : List String → Option String
  | [] => none
  | r :: rs => if (lookupTag tags r).isSome then firstUnknownRef tags rs else some r

/-- `Manager.AddTag(name, color, queryString)`, with the parse result of
`queryString` passed in.  The result is the updated tag map and whether a
tagging job was requested; an error leaves the map unchanged (the Go
function returns before touching `mgr.tags`). -/
def addTag (tags : List (String × Tag)) (allStreams : Finset Nat)
    (nextStreamID : Nat) (name color queryString : String)
    (parsed : Except String ParsedQuery) :
    Except String (List (String × Tag) × Bool) :=
  if (isTagOrService name || isMarkName name) = false then
    .error "invalid tag name (need a tag/, service/, mark/ or generated/ name start)"
  else if afterSlash name.data = [] then
    .error "invalid tag name (first segment only not allowed)"
  else
    match parsed with
    | .error e => .error e
    | .ok q =>
      if (q.features.mainTimeRel || q.features.subTimeRel) = true then
        .error "relative times not yet supported in tags"
      else if q.grouping = true then
        .error "grouping not allowed in tags"
      else if name ∈ q.features.mainTags ++ q.features.subQueryTags then
        .error "self reference not allowed in tags"
      else if isMarkName name = true ∧ streamIDsOf q 0 = none then
        .error "tags of type mark have to only contain an id filter"
      else if (lookupTag tags name).isSome = true then
        .error "tag already exists"
      else if firstUnknownRef tags (q.features.mainTags ++ q.features.subQueryTags)
          ≠ none then
        .error "unknown referenced tag"
      else if isMarkName name = true then
        .ok (tags ++ [(name,
          ⟨(streamIDsOf q nextStreamID).getD ∅, ∅, q.features, queryString, color, []⟩)],
          false)
      else
        .ok (tags ++ [(name, ⟨∅, allStreams, q.features, queryString, color, []⟩)],
          true)

/-- `UpdateTag`'s operation record after applying the operation closure
(mark-add, mark-del and color operations; converter set updates touch the
converter registry, which no claim covers, and are not modelled). -/
structure UpdateOpInfo where
  markAdd : List Nat
  markDel : List Nat
  color : String
deriving DecidableEq

/-- The `maxUsedStreamID` accumulation over the add and del stream lists
(`if maxUsedStreamID <= s { maxUsedStreamID = s + 1 }` on `uint64`). -/
def updTagMaxUsed (info : UpdateOpInfo) : Nat :=
  (info.markAdd ++ info.markDel).foldl
    (fun m s => if m ≤ s then (s + 1) % 2 ^ 64 else m) 0

/-- `newTag.Matches` after the two loops: the added ids set, then the
deleted ids unset. -/
def markMatches (info : UpdateOpInfo) (m : Finset Nat) : Finset Nat :=
  info.markDel.foldl (fun s i => s.erase i)
    (info.markAdd.foldl (fun s i => insert i s) m)

/-- `newTag.Uncertain` after the two loops: every touched id set. -/
def markUncertain (info : UpdateOpInfo) (u : Finset Nat) : Finset Nat :=
  info.markDel.foldl (fun s i => insert i s)
    (info.markAdd.foldl (fun s i => insert i s) u)

/-- The ascending list of set bits of a stream bitmask as enumerated by the
`TrailingZerosFrom` loop that rebuilds a mark definition, as a fuelled scan
from `cur` (the loop stops past the largest set bit). -/
def setBitsAsc (m : Finset Nat) : Nat → Nat → List Nat
  | 0, _ => []
  | fuel + 1, cur =>
    if cur ∈ m then cur :: setBitsAsc m fuel (cur + 1)
    else setBitsAsc m fuel (cur + 1)

/-- The rebuilt definition string of a mark tag: `id:-1` when no stream
matches, otherwise `id:` with the comma-separated ascending matched ids. -/
def idListDefinition (m : Finset Nat) : String :=
  if m = ∅ then "id:-1"
  else "id:" ++ String.intercalate ","
    ((setBitsAsc m (m.sup id + 1) 0).map (fun n => toString n))

/-- `mgr.tags[name].Uncertain = bitmask.LongBitmask{}` after re-inheriting:
the named entry's uncertain set is cleared in place. -/
def setTagUncertainEmpty (tags : List (String × Tag)) (name : String) :
    List (String × Tag) :=
  tags.map (fun p =>
    if p.1 = name then (p.1, { p.2 with uncertain := ∅ }) else p)

/-- `tag.color = info.color` when a color was given (the tag struct is
mutated in place). -/
def colorAdjTag (info : UpdateOpInfo) (tg0 : Tag) : Tag :=
  if info.color = "" then tg0 else { tg0 with color := info.color }

/-- The tag map after the in-place color mutation. -/
def colorAdjTags (info : UpdateOpInfo) (tags : List (String × Tag))
    (name : String) (tg0 : Tag) : List (String × Tag) :=
  if info.color = "" then tags else setTagEntry tags name (colorAdjTag info tg0)

/-- The manager-goroutine part of `UpdateTag`, with `maxUsed` the already
decremented `maxUsedStreamID`.  The reparse of the rebuilt definition only
replaces the opaque `Conditions`, which the tag model does not carry. -/
def updateTagJobPhase (allS : Finset Nat) (next : Nat)
    (tags : List (String × Tag)) (name : String) (info : UpdateOpInfo)
    (maxUsed : Nat) : Except String (List (String × Tag)) :=
  match lookupTag tags name with
  | none => .error ("unknown tag " ++ name)
  | some tg0 =>
    if maxUsed ≠ 0 then
      if next ≤ maxUsed then .error "unknown stream id"
      else
        .ok (setTagUncertainEmpty
          (inheritTagUncertainty allS (setTagEntry (colorAdjTags info tags name tg0) name
            ⟨markMatches info (colorAdjTag info tg0).matched,
              markUncertain info (colorAdjTag info tg0).uncertain,
              (colorAdjTag info tg0).features,
              idListDefinition (markMatches info (colorAdjTag info tg0).matched),
              (colorAdjTag info tg0).color, (colorAdjTag info tg0).converters⟩)) name)
    else .ok (colorAdjTags info tags name tg0)

/-- `Manager.UpdateTag(name, op)` for mark-add, mark-del and color
operations. -/
def updateTag (allS : Finset Nat) (next : Nat) (tags : List (String × Tag))
    (name : String) (info : UpdateOpInfo) :
    Except String (List (String × Tag)) :=
  if info.markAdd.length ≠ 0 ∨ info.markDel.length ≠ 0 then
    if isMarkName name = false then
      .error ("tag " ++ name ++ " is not of type mark or enerated")
    else if updTagMaxUsed info = 0 then .ok tags
    else updateTagJobPhase allS next tags name info (updTagMaxUsed info - 1)
  else updateTagJobPhase allS next tags name info 0

/-- The manager-goroutine completion of `updateTagJob`: the recomputed tag
(whose uncertain set the job cleared just before queueing this closure)
replaces the entry when the definition is unchanged, and streams that
arrived during the job are then invalidated. -/
def updateTagJobFinish (allS upd add : Finset Nat)
    (tags : List (String × Tag)) (name : String) (t : Tag) :
    List (String × Tag) :=
  match lookupTag tags name with
  | some ot =>
    if ot.definition = t.definition then
      let tags2 := setTagEntry tags name { t with uncertain := ∅ }
      if upd = ∅ ∧ add = ∅ then tags2 else invalidateTags allS upd add tags2
    else tags
  | none => tags

/-- The manager-goroutine completion of `convertStreamJob`: every tag using
a data filter (main or subquery) gets the converted stream ids OR-ed into
its uncertain set. -/
def convertJobFinish (converted : Finset Nat) (tags : List (String × Tag)) :
    List (String × Tag) :=
  tags.map (fun p =>
    if (p.2.features.mainData || p.2.features.subData) = true then
      (p.1, { p.2 with uncertain := p.2.uncertain ∪ converted })
    else p)

/-- Modelled from the spec: a mark condition reduces to a pure id filter,
so its feature set has at most the main id-filter bit and no referenced
tags. -/
def pureIdFeatures (f : FeatureSet) : Prop :=
  f.mainData = false ∧ f.mainTimeAbs = false ∧ f.mainTimeRel = false ∧
  f.subID = false ∧ f.subData = false ∧ f.subTimeAbs = false ∧
  f.subTimeRel = false ∧ f.mainTags = [] ∧ f.subQueryTags = []

instance (f : FeatureSet) : Decidable (pureIdFeatures f) := by
  unfold pureIdFeatures
  exact inferInstance

/-- The C8 invariant: every `mark/` or `generated/` entry has an empty
uncertain set and pure id-filter features. -/
def marksClean (tags : List (String × Tag)) : Prop :=
  ∀ p ∈ tags, isMarkName p.1 = true →
    p.2.uncertain = ∅ ∧ pureIdFeatures p.2.features

instance (tags : List (String × Tag)) : Decidable (marksClean tags) := by
  unfold marksClean
  exact inferInstance

/-- The features half of the invariant on its own. -/
def marksPure (tags : List (String × Tag)) : Prop :=
  ∀ p ∈ tags, isMarkName p.1 = true → pureIdFeatures p.2.features

/-! ### Helper lemmas on the `maxUsedStreamID` fold -/

theorem updFold_mono (l : List Nat) (hw : ∀ i ∈ l, i + 1 < 2 ^ 64) (init : Nat) :
    init ≤ l.foldl (fun m s => if m ≤ s then (s + 1) % 2 ^ 64 else m) init := by
  induction l generalizing init with
  | nil => exact le_refl init
  | cons a as ih =>
    rw [List.foldl_cons]
    refine le_trans ?_ (ih (fun i hi => hw i (List.mem_cons_of_mem a hi)) _)
    by_cases h : init ≤ a
    · rw [if_pos h, Nat.mod_eq_of_lt (hw a (List.mem_cons_self a as))]
      omega
    · rw [if_neg h]

theorem updFold_ge (l : List Nat) (hw : ∀ i ∈ l, i + 1 < 2 ^ 64) (init i : Nat)
    (hi : i ∈ l) :
    i + 1 ≤ l.foldl (fun m s => if m ≤ s then (s + 1) % 2 ^ 64 else m) init := by
  induction l generalizing init with
  | nil => cases hi
  | cons a as ih =>
    rw [List.foldl_cons]
    have hw2 : ∀ j ∈ as, j + 1 < 2 ^ 64 := fun j hj => hw j (List.mem_cons_of_mem a hj)
    rcases List.mem_cons.mp hi with rfl | hmem
    · refine le_trans ?_ (updFold_mono as hw2 _)
      by_cases h : init ≤ i
      · rw [if_pos h, Nat.mod_eq_of_lt (hw i (List.mem_cons_self i as))]
      · rw [if_neg h]
        omega
    · exact ih hw2 _ hmem

theorem updFold_le (l : List Nat) (B : Nat) (hB : B < 2 ^ 64) (init : Nat)
    (hinit : init ≤ B) (hl : ∀ i ∈ l, i < B) :
    l.foldl (fun m s => if m ≤ s then (s + 1) % 2 ^ 64 else m) init ≤ B := by
  induction l generalizing init with
  | nil => exact hinit
  | cons a as ih =>
    rw [List.foldl_cons]
    refine ih _ ?_ (fun i hi => hl i (List.mem_cons_of_mem a hi))
    by_cases h : init ≤ a
    · rw [if_pos h]
      have ha : a < B := hl a (List.mem_cons_self a as)
      rw [Nat.mod_eq_of_lt (by omega)]
      omega
    · rw [if_neg h]
      exact hinit

/-! ### The non-uncertain fields of a tag survive inheritance -/

/-- The fields of a tag other than `uncertain`. -/
def tagSkel (t : Tag) : Finset Nat × FeatureSet × String × String × List String :=
  (t.matched, t.features, t.definition, t.color, t.converters)

theorem tagSkel_inheritOne (allS : Finset Nat) (tags : List (String × Tag))
    (t : Tag) : tagSkel (inheritOne allS tags t) = tagSkel t := by
  rw [inheritOne]
  split <;> rfl

theorem tag_eq_of_skel (t s : Tag) (h : tagSkel t = tagSkel s)
    (hu : t.uncertain = s.uncertain) : t = s := by
  cases t
  cases s
  simp only [tagSkel, Prod.mk.injEq] at h
  simp_all

theorem lookupTag_skel_inheritPass (allS : Finset Nat) (ns : List String) :
    ∀ (tags : List (String × Tag)) (res : List String) (n : String),
      (lookupTag (inheritPass allS ns tags res).1 n).map tagSkel
        = (lookupTag tags n).map tagSkel := by
  induction ns with
  | nil => intro tags res n; rfl
  | cons m ns ih =>
    intro tags res n
    rw [inheritPass]
    cases hlk : lookupTag tags m with
    | none => exact ih tags res n
    | some t =>
      simp only []
      by_cases hres : m ∈ res
      · rw [if_pos hres]
        exact ih tags res n
      · rw [if_neg hres]
        by_cases hall : ∀ rtn ∈ referencedTags t, rtn ∈ res
        · rw [if_pos hall]
          by_cases hrefs0 : t.features.mainTags = [] ∧ t.features.subQueryTags = []
          · rw [if_pos hrefs0]
            exact ih tags _ n
          · rw [if_neg hrefs0, ih _ _ n, lookupTag_setTagEntry]
            by_cases hmn : m = n
            · rw [if_pos hmn, ← hmn, hlk]
              simp [tagSkel_inheritOne]
            · rw [if_neg hmn]
        · rw [if_neg hall]
          exact ih tags res n

theorem lookupTag_skel_inheritLoop (allS : Finset Nat) (fuel : Nat) :
    ∀ (tags : List (String × Tag)) (res : List String) (n : String),
      (lookupTag (inheritLoop allS fuel tags res) n).map tagSkel
        = (lookupTag tags n).map tagSkel := by
  induction fuel with
  | zero => intro tags res n; rfl
  | succ fuel ih =>
    intro tags res n
    rw [inheritLoop]
    by_cases hlen : res.length = tags.length
    · rw [if_pos hlen]
    · rw [if_neg hlen]
      dsimp only
      rw [ih _ _ n, lookupTag_skel_inheritPass]

theorem lookupTag_skel_inherit (allS : Finset Nat) (tags : List (String × Tag))
    (n : String) :
    (lookupTag (inheritTagUncertainty allS tags) n).map tagSkel
      = (lookupTag tags n).map tagSkel :=
  lookupTag_skel_inheritLoop allS _ tags [] n

/-! ### Mark entries are never modified by inheritance -/

theorem marks_setTagEntry (tags : List (String × Tag)) (m : String) (e : Tag)
    (hm : isMarkName m = false) :
    ∀ p ∈ setTagEntry tags m e, isMarkName p.1 = true → p ∈ tags := by
  intro p hp hmark
  obtain ⟨p0, hp0, hpe⟩ := List.mem_map.mp hp
  by_cases hpm : p0.1 = m
  · rw [if_pos hpm] at hpe
    subst hpe
    rw [hpm] at hmark
    rw [hmark] at hm
    cases hm
  · rw [if_neg hpm] at hpe
    subst hpe
    exact hp0

theorem marks_mem_inheritPass (allS : Finset Nat) (ns : List String) :
    ∀ (tags : List (String × Tag)) (res : List String),
      marksPure tags →
      marksPure (inheritPass allS ns tags res).1 ∧
      ∀ p ∈ (inheritPass allS ns tags res).1, isMarkName p.1 = true → p ∈ tags := by
  induction ns with
  | nil => intro tags res h; exact ⟨h, fun p hp _ => hp⟩
  | cons m ns ih =>
    intro tags res h
    rw [inheritPass]
    cases hlk : lookupTag tags m with
    | none => exact ih tags res h
    | some t =>
      simp only []
      by_cases hres : m ∈ res
      · rw [if_pos hres]
        exact ih tags res h
      · rw [if_neg hres]
        by_cases hall : ∀ rtn ∈ referencedTags t, rtn ∈ res
        · rw [if_pos hall]
          by_cases hrefs0 : t.features.mainTags = [] ∧ t.features.subQueryTags = []
          · rw [if_pos hrefs0]
            exact ih tags _ h
          · rw [if_neg hrefs0]
            have hmm : isMarkName m = false := by
              cases hb : isMarkName m
              · rfl
              · have hpure := h (m, t) (lookupTag_mem tags m t hlk) hb
                exact absurd ⟨hpure.2.2.2.2.2.2.2.1, hpure.2.2.2.2.2.2.2.2⟩ hrefs0
            have hmem := marks_setTagEntry tags m (inheritOne allS tags t) hmm
            have hpure2 : marksPure (setTagEntry tags m (inheritOne allS tags t)) :=
              fun p hp hmark => h p (hmem p hp hmark) hmark
            obtain ⟨ha, hb⟩ := ih _ _ hpure2
            exact ⟨ha, fun p hp hmark => hmem p (hb p hp hmark) hmark⟩
        · rw [if_neg hall]
          exact ih tags res h

theorem marks_mem_inheritLoop (allS : Finset Nat) (fuel : Nat) :
    ∀ (tags : List (String × Tag)) (res : List String),
      marksPure tags →
      marksPure (inheritLoop allS fuel tags res) ∧
      ∀ p ∈ inheritLoop allS fuel tags res, isMarkName p.1 = true → p ∈ tags := by
  induction fuel with
  | zero => intro tags res h; exact ⟨h, fun p hp _ => hp⟩
  | succ fuel ih =>
    intro tags res h
    rw [inheritLoop]
    by_cases hlen : res.length = tags.length
    · rw [if_pos hlen]
      exact ⟨h, fun p hp _ => hp⟩
    · rw [if_neg hlen]
      dsimp only
      obtain ⟨ha, hb⟩ := marks_mem_inheritPass allS (tagNames tags) tags res h
      obtain ⟨hc, hd⟩ := ih _ _ ha
      exact ⟨hc, fun p hp hmark => hb p (hd p hp hmark) hmark⟩

theorem marks_mem_inherit (allS : Finset Nat) (tags : List (String × Tag))
    (h : marksPure tags) :
    marksPure (inheritTagUncertainty allS tags) ∧
    ∀ p ∈ inheritTagUncertainty allS tags, isMarkName p.1 = true → p ∈ tags :=
  marks_mem_inheritLoop allS (tags.length + 1) tags [] h

/-! ### Lookup through the final uncertain-clearing step -/

theorem lookupTag_setTagUncertainEmpty_self (tags : List (String × Tag))
    (name : String) :
    lookupTag (setTagUncertainEmpty tags name) name =
      (lookupTag tags name).map (fun t => { t with uncertain := ∅ }) := by
  induction tags with
  | nil => rfl
  | cons p rest ih =>
    show lookupTag ((if p.1 = name then (p.1, { p.2 with uncertain := ∅ }) else p)
        :: setTagUncertainEmpty rest name) name = _
    by_cases hp : p.1 = name
    · rw [if_pos hp, lookupTag, if_pos hp, lookupTag, if_pos hp]
      rfl
    · rw [if_neg hp, lookupTag, if_neg hp, lookupTag, if_neg hp, ih]

/-! ### Claim C6 -/

theorem firstUnknownRef_ne_none (tags : List (String × Tag)) (refs : List String) :
    firstUnknownRef tags refs ≠ none ↔ ∃ r ∈ refs, lookupTag tags r = none := by
  induction refs with
  | nil => simp [firstUnknownRef]
  | cons r rs ih =>
    rw [firstUnknownRef]
    by_cases h : (lookupTag tags r).isSome = true
    · rw [if_pos h, ih]
      constructor
      · rintro ⟨s, hs, hn⟩
        exact ⟨s, List.mem_cons_of_mem r hs, hn⟩
      · rintro ⟨s, hs, hn⟩
        rcases List.mem_cons.mp hs with rfl | hs2
        · rw [hn] at h
          cases h
        · exact ⟨s, hs2, hn⟩
    · rw [if_neg h]
      have hnone : lookupTag tags r = none := by
        cases hx : lookupTag tags r
        · rfl
        · rw [hx] at h
          exact absurd rfl h
      constructor
      · intro _
        exact ⟨r, List.mem_cons_self r rs, hnone⟩
      · intro _ hc
        cases hc

theorem addTag_ok_inv (tags : List (String × Tag)) (allStreams : Finset Nat)
    (next : Nat) (name color qs : String) (q : ParsedQuery)
    (out : List (String × Tag) × Bool)
    (hout : addTag tags allStreams next name color qs (.ok q) = .ok out) :
    ¬ ((isTagOrService name || isMarkName name) = false)
    ∧ ¬ (afterSlash name.data = [])
    ∧ ¬ ((q.features.mainTimeRel || q.features.subTimeRel) = true)
    ∧ ¬ (q.grouping = true)
    ∧ ¬ (name ∈ q.features.mainTags ++ q.features.subQueryTags)
    ∧ ¬ (isMarkName name = true ∧ streamIDsOf q 0 = none)
    ∧ ¬ ((lookupTag tags name).isSome = true)
    ∧ ¬ (∃ r ∈ q.features.mainTags ++ q.features.subQueryTags,
          lookupTag tags r = none)
    ∧ out = (tags ++ [(name,
        if isMarkName name = true then
          ⟨(streamIDsOf q next).getD ∅, ∅, q.features, qs, color, []⟩
        else ⟨∅, allStreams, q.features, qs, color, []⟩)],
      !(isMarkName name)) := by
  rw [addTag] at hout
  split_ifs at hout with h1 h2 h3 h4 h5 h6 h7 h8 h9 <;> try cases hout
  · exact ⟨h1, h2, h3, h4, h5, h6, h7,
      fun hex => h8 ((firstUnknownRef_ne_none tags _).mpr hex),
      by rw [if_pos h9, h9]; rfl⟩
  · refine ⟨h1, h2, h3, h4, h5, h6, h7,
      fun hex => h8 ((firstUnknownRef_ne_none tags _).mpr hex), ?_⟩
    rw [if_neg h9]
    rw [Bool.not_eq_true] at h9
    rw [h9]
    rfl

/-- C6: `AddTag` fails — leaving the tag map unchanged, since the Go
function returns before touching `mgr.tags` — exactly when the name lacks
all four recognised name starts, is a first segment only, the definition
fails to parse, the query uses a relative-time condition or grouping, the
tag references itself, a mark tag has no explicit id-set, the name already
exists, or a referenced tag is unknown; otherwise the tag is appended with
the explicit id-set as matches and empty uncertain for marks, and with
`uncertain = allStreams` plus a tagging-job request for all other tags. -/
theorem c6_add_tag_errors (tags : List (String × Tag)) (allStreams : Finset Nat)
    (next : Nat) (name color queryString : String)
    (parsed : Except String ParsedQuery) :
    ((∃ e, addTag tags allStreams next name color queryString parsed
        = .error e) ↔
      ((isTagOrService name || isMarkName name) = false
        ∨ afterSlash name.data = []
        ∨ (∃ e, parsed = .error e)
        ∨ (∃ q, parsed = .ok q ∧
            ((q.features.mainTimeRel || q.features.subTimeRel) = true
              ∨ q.grouping = true
              ∨ name ∈ q.features.mainTags ++ q.features.subQueryTags
              ∨ (isMarkName name = true ∧ streamIDsOf q 0 = none)
              ∨ (lookupTag tags name).isSome = true
              ∨ (∃ r ∈ q.features.mainTags ++ q.features.subQueryTags,
                  lookupTag tags r = none)))))
    ∧ (∀ q out, parsed = .ok q →
        addTag tags allStreams next name color queryString parsed = .ok out →
        out = (tags ++ [(name,
            if isMarkName name = true then
              ⟨(streamIDsOf q next).getD ∅, ∅, q.features, queryString, color, []⟩
            else ⟨∅, allStreams, q.features, queryString, color, []⟩)],
          !(isMarkName name))) := by
  rcases parsed with e | q
  · refine ⟨⟨fun _ => ?_, fun _ => ?_⟩, fun q out hq => by cases hq⟩
    · by_cases h1 : (isTagOrService name || isMarkName name) = false
      · exact Or.inl h1
      · by_cases h2 : afterSlash name.data = []
        · exact Or.inr (Or.inl h2)
        · exact Or.inr (Or.inr (Or.inl ⟨e, rfl⟩))
    · rw [addTag]
      split_ifs <;> exact ⟨_, rfl⟩
  · refine ⟨⟨?_, ?_⟩, ?_⟩
    · rintro ⟨e, he⟩
      rw [addTag] at he
      split_ifs at he with h1 h2 h3 h4 h5 h6 h7 h8 h9 <;> try cases he
      · exact Or.inl h1
      · exact Or.inr (Or.inl h2)
      · exact Or.inr (Or.inr (Or.inr ⟨q, rfl, Or.inl h3⟩))
      · exact Or.inr (Or.inr (Or.inr ⟨q, rfl, Or.inr (Or.inl h4)⟩))
      · exact Or.inr (Or.inr (Or.inr ⟨q, rfl, Or.inr (Or.inr (Or.inl h5))⟩))
      · exact Or.inr (Or.inr (Or.inr ⟨q, rfl,
          Or.inr (Or.inr (Or.inr (Or.inl h6)))⟩))
      · exact Or.inr (Or.inr (Or.inr ⟨q, rfl,
          Or.inr (Or.inr (Or.inr (Or.inr (Or.inl h7))))⟩))
      · exact Or.inr (Or.inr (Or.inr ⟨q, rfl,
          Or.inr (Or.inr (Or.inr (Or.inr (Or.inr
            ((firstUnknownRef_ne_none tags _).mp h8)))))⟩))
    · intro hdisj
      cases hok : addTag tags allStreams next name color queryString (.ok q) with
      | error e => exact ⟨e, rfl⟩
      | ok out =>
        exfalso
        obtain ⟨n1, n2, n3, n4, n5, n6, n7, n8, _⟩ :=
          addTag_ok_inv tags allStreams next name color queryString q out hok
        rcases hdisj with h1 | h2 | ⟨e, he⟩ | ⟨q2, hq2, hcond⟩
        · exact n1 h1
        · exact n2 h2
        · cases he
        · have hqq : q2 = q := by
            injection hq2 with h
            exact h.symm
          subst hqq
          rcases hcond with h3 | h4 | h5 | h6 | h7 | h8
          · exact n3 h3
          · exact n4 h4
          · exact n5 h5
          · exact n6 h6
          · exact n7 h7
          · exact n8 h8
    · intro q2 out hq2 hout
      have hqq : q2 = q := by
        injection hq2 with h
        exact h.symm
      subst hqq
      exact (addTag_ok_inv _ _ _ _ _ _ _ _ hout).2.2.2.2.2.2.2.2

/-- Parse result of the plain data filter `data:x`: data feature in the
main query, no grouping, no explicit id-set. -/
def c6ExQuery : ParsedQuery :=
  ⟨⟨false, true, false, false, false, false, false, false, [], []⟩, false, none⟩

/-- Witness for C6: adding `tag/x` with a data filter to an empty manager
succeeds and appends the tag with `uncertain = allStreams` and a
tagging-job request. -/
theorem c6_add_tag_errors_witness :
    (([("tag/x", (⟨∅, {0, 1}, c6ExQuery.features, "data:x", "c", []⟩ : Tag))], true) :
        List (String × Tag) × Bool)
      = ([] ++ [("tag/x",
          if isMarkName "tag/x" = true then
            ⟨(streamIDsOf c6ExQuery 2).getD ∅, ∅, c6ExQuery.features, "data:x", "c", []⟩
          else ⟨∅, {0, 1}, c6ExQuery.features, "data:x", "c", []⟩)],
        !(isMarkName "tag/x")) :=
  (c6_add_tag_errors [] {0, 1} 2 "tag/x" "c" "data:x" (.ok c6ExQuery)).2
    c6ExQuery _ rfl rfl

/-! ### Claim C7 -/

/-- An existing mark tag with empty matches. -/
def c7ExTag : Tag :=
  ⟨∅, ∅, ⟨true, false, false, false, false, false, false, false, [], []⟩,
    "id:-1", "", []⟩

/-- Counterexample to C7 as stated: a mark-add of only stream id 0 — a
non-empty id list entirely below `nextStreamID` — on an existing `mark/`
tag is a silent no-op: `maxUsedStreamID` decrements to 0, the whole mark
update is skipped and id 0 is never set in the matches. -/
theorem c7_counterexample :
    updateTag {0} 1 [("mark/m", c7ExTag)] "mark/m" ⟨[0], [], ""⟩
        = .ok [("mark/m", c7ExTag)]
      ∧ 0 ∉ c7ExTag.matched :=
  ⟨rfl, by decide⟩

/-- C7 (amended): for an existing `mark/` or `generated/` tag and id lists
below `nextStreamID` containing some positive id, `UpdateTag` sets the
added and clears the deleted ids in the tag's matches, rebuilds the
definition as the ascending `id:` list of the result, and after
re-inheriting clears the tag's uncertain set; a mark operation on a name
without the `mark/` or `generated/` start fails, as does one naming a
positive id at or above `nextStreamID`.  (The original claim also promised
the update when the only listed id is 0; that case is a silent no-op, see
the counterexample.) -/
theorem c7_update_tag_marks (allS : Finset Nat) (next : Nat)
    (tags : List (String × Tag)) (name : String) (info : UpdateOpInfo)
    (hcolor : info.color = "")
    (hw : ∀ i ∈ info.markAdd ++ info.markDel, i + 1 < 2 ^ 64) :
    (info.markAdd ++ info.markDel ≠ [] → isMarkName name = false →
      ∃ e, updateTag allS next tags name info = .error e)
    ∧ ((∃ i ∈ info.markAdd ++ info.markDel, next ≤ i ∧ 0 < i) →
        isMarkName name = true →
        ∃ e, updateTag allS next tags name info = .error e)
    ∧ (∀ tg, lookupTag tags name = some tg →
        isMarkName name = true →
        (∀ i ∈ info.markAdd ++ info.markDel, i < next) →
        (∃ i ∈ info.markAdd ++ info.markDel, 0 < i) →
        ∃ tags2, updateTag allS next tags name info = .ok tags2 ∧
          lookupTag tags2 name = some
            ⟨markMatches info tg.matched, ∅, tg.features,
              idListDefinition (markMatches info tg.matched),
              tg.color, tg.converters⟩) := by
  refine ⟨?_, ?_, ?_⟩
  · intro hne hmark
    have hlen : info.markAdd.length ≠ 0 ∨ info.markDel.length ≠ 0 := by
      have h0 : (info.markAdd ++ info.markDel).length ≠ 0 := by
        intro h
        exact hne (List.eq_nil_of_length_eq_zero h)
      rw [List.length_append] at h0
      omega
    rw [updateTag, if_pos hlen, if_pos hmark]
    exact ⟨_, rfl⟩
  · rintro ⟨i, hi, hinext, hipos⟩ hmark
    have hlen : info.markAdd.length ≠ 0 ∨ info.markDel.length ≠ 0 := by
      rcases List.mem_append.mp hi with h | h
      · exact Or.inl (by simpa using List.ne_nil_of_mem h)
      · exact Or.inr (by simpa using List.ne_nil_of_mem h)
    have hge : i + 1 ≤ updTagMaxUsed info := updFold_ge _ hw 0 i hi
    rw [updateTag, if_pos hlen, if_neg (by simp [hmark]),
      if_neg (by omega)]
    unfold updateTagJobPhase
    cases hlk : lookupTag tags name with
    | none => exact ⟨_, rfl⟩
    | some tg0 =>
      simp only []
      rw [if_pos (show updTagMaxUsed info - 1 ≠ 0 by omega),
        if_pos (show next ≤ updTagMaxUsed info - 1 by omega)]
      exact ⟨_, rfl⟩
  · intro tg hlkup hmark hbound hpos
    obtain ⟨i, hi, hipos⟩ := hpos
    have hlen : info.markAdd.length ≠ 0 ∨ info.markDel.length ≠ 0 := by
      rcases List.mem_append.mp hi with h | h
      · exact Or.inl (by simpa using List.ne_nil_of_mem h)
      · exact Or.inr (by simpa using List.ne_nil_of_mem h)
    have hge : i + 1 ≤ updTagMaxUsed info := updFold_ge _ hw 0 i hi
    have hle : updTagMaxUsed info ≤ next := by
      rcases lt_or_le next (2 ^ 64) with hn | hn
      · exact updFold_le _ next hn 0 (Nat.zero_le _) hbound
      · have h1 : updTagMaxUsed info ≤ 2 ^ 64 - 1 :=
          updFold_le _ (2 ^ 64 - 1) (by omega) 0 (Nat.zero_le _)
            (fun j hj => by have := hw j hj; omega)
        omega
    rw [updateTag, if_pos hlen, if_neg (by simp [hmark]),
      if_neg (by omega)]
    unfold updateTagJobPhase
    rw [hlkup]
    simp only []
    rw [if_pos (show updTagMaxUsed info - 1 ≠ 0 by omega),
      if_neg (show ¬ next ≤ updTagMaxUsed info - 1 by omega)]
    have hadj1 : colorAdjTag info tg = tg := by
      rw [colorAdjTag, if_pos hcolor]
    have hadj2 : colorAdjTags info tags name tg = tags := by
      rw [colorAdjTags, if_pos hcolor]
    rw [hadj1, hadj2]
    refine ⟨_, rfl, ?_⟩
    rw [lookupTag_setTagUncertainEmpty_self]
    have hskel := lookupTag_skel_inherit allS (setTagEntry tags name
      ⟨markMatches info tg.matched, markUncertain info tg.uncertain,
        tg.features, idListDefinition (markMatches info tg.matched),
        tg.color, tg.converters⟩) name
    rw [lookupTag_setTagEntry, if_pos rfl, hlkup] at hskel
    cases hx : lookupTag (inheritTagUncertainty allS (setTagEntry tags name
        ⟨markMatches info tg.matched, markUncertain info tg.uncertain,
          tg.features, idListDefinition (markMatches info tg.matched),
          tg.color, tg.converters⟩)) name with
    | none =>
      rw [hx] at hskel
      cases hskel
    | some t2 =>
      rw [hx] at hskel
      have hsk2 : tagSkel t2 = tagSkel
          (⟨markMatches info tg.matched, markUncertain info tg.uncertain,
            tg.features, idListDefinition (markMatches info tg.matched),
            tg.color, tg.converters⟩ : Tag) := by
        injection hskel
      exact congrArg some (tag_eq_of_skel _ _ hsk2 rfl)

/-- The pure id-filter feature set. -/
def c7WFeat : FeatureSet :=
  ⟨true, false, false, false, false, false, false, false, [], []⟩

/-- A manager holding `mark/favs` with matches `{3, 7}`. -/
def c7WTags : List (String × Tag) :=
  [("mark/favs", ⟨{3, 7}, ∅, c7WFeat, "id:3,7", "#f00", []⟩)]

/-- Witness for C7: a mark-add of stream id 5 on `mark/favs` (matches
`{3, 7}`) succeeds, the matches become `{3, 5, 7}` and the definition is
rebuilt as `id:3,5,7` with the tag's uncertain set left empty. -/
theorem c7_update_tag_marks_witness :
    ∃ tags2, updateTag {0, 1, 2, 3, 4, 5, 6, 7} 8 c7WTags "mark/favs"
        ⟨[5], [], ""⟩ = .ok tags2 ∧
      lookupTag tags2 "mark/favs"
        = some ⟨{3, 5, 7}, ∅, c7WFeat, "id:3,5,7", "#f00", []⟩ := by
  obtain ⟨tags2, hok, hlook⟩ :=
    (c7_update_tag_marks {0, 1, 2, 3, 4, 5, 6, 7} 8 c7WTags "mark/favs"
        ⟨[5], [], ""⟩ rfl (by decide)).2.2
      ⟨{3, 7}, ∅, c7WFeat, "id:3,7", "#f00", []⟩ rfl rfl (by decide)
      ⟨5, by decide, by decide⟩
  refine ⟨tags2, hok, ?_⟩
  rw [hlook]
  have h1 : markMatches ⟨[5], [], ""⟩ ({3, 7} : Finset Nat) = {3, 5, 7} := by
    decide
  rw [h1]
  have h2 : idListDefinition ({3, 5, 7} : Finset Nat) = "id:3,5,7" := by
    decide
  rw [h2]

/-! ### Claim C8 -/

theorem colorAdjTag_uncertain (info : UpdateOpInfo) (tg0 : Tag) :
    (colorAdjTag info tg0).uncertain = tg0.uncertain := by
  rw [colorAdjTag]
  split <;> rfl

theorem colorAdjTag_features (info : UpdateOpInfo) (tg0 : Tag) :
    (colorAdjTag info tg0).features = tg0.features := by
  rw [colorAdjTag]
  split <;> rfl

theorem invalidateTagOne_pure (allS upd add : Finset Nat) (t : Tag)
    (h : pureIdFeatures t.features) : invalidateTagOne allS upd add t = t := by
  obtain ⟨h1, h2, h3, h4, h5, h6, h7, h8, h9⟩ := h
  have ha : ¬ (anySubQueryFeature t.features = true) := by
    simp [anySubQueryFeature, h4, h5, h6, h7]
  have hb : mainBeyondID t.features = false := by
    simp [mainBeyondID, h1, h2, h3]
  rw [invalidateTagOne, if_neg ha, if_pos hb]

theorem marksClean_pure (tags : List (String × Tag)) (h : marksClean tags) :
    marksPure tags :=
  fun p hp hm => (h p hp hm).2

theorem marksPure_setTagEntry (tags : List (String × Tag)) (name : String)
    (e : Tag) (h : marksPure tags)
    (he : isMarkName name = true → pureIdFeatures e.features) :
    marksPure (setTagEntry tags name e) := by
  intro p hp hm
  obtain ⟨p0, hp0, hpe⟩ := List.mem_map.mp hp
  by_cases hpm : p0.1 = name
  · rw [if_pos hpm] at hpe
    subst hpe
    rw [hpm] at hm
    exact he hm
  · rw [if_neg hpm] at hpe
    subst hpe
    exact h p0 hp0 hm

theorem marksClean_invalidateTags_aux (allS upd add : Finset Nat)
    (tags : List (String × Tag)) (h : marksClean tags) :
    marksClean (invalidateTags allS upd add tags) := by
  rw [invalidateTags]
  have hM : ∀ p ∈ tags.map (fun p => (p.1, invalidateTagOne allS upd add p.2)),
      isMarkName p.1 = true → p.2.uncertain = ∅ ∧ pureIdFeatures p.2.features := by
    intro p hp hm
    obtain ⟨p0, hp0, hpe⟩ := List.mem_map.mp hp
    subst hpe
    have h0 := h p0 hp0 hm
    rw [invalidateTagOne_pure allS upd add p0.2 h0.2]
    exact h0
  obtain ⟨_, hmem⟩ := marks_mem_inherit allS _ (fun p hp hm => (hM p hp hm).2)
  exact fun p hp hm => hM p (hmem p hp hm) hm

theorem marksClean_inherit_aux (allS : Finset Nat) (tags : List (String × Tag))
    (h : marksClean tags) : marksClean (inheritTagUncertainty allS tags) := by
  obtain ⟨_, hmem⟩ := marks_mem_inherit allS tags (marksClean_pure tags h)
  exact fun p hp hm => h p (hmem p hp hm) hm

theorem marksClean_colorAdj (info : UpdateOpInfo) (tags : List (String × Tag))
    (name : String) (tg0 : Tag) (h : marksClean tags)
    (hlk : lookupTag tags name = some tg0) :
    marksClean (colorAdjTags info tags name tg0) := by
  rw [colorAdjTags]
  split
  · exact h
  · intro p hp hm
    obtain ⟨p0, hp0, hpe⟩ := List.mem_map.mp hp
    by_cases hpm : p0.1 = name
    · rw [if_pos hpm] at hpe
      subst hpe
      rw [hpm] at hm
      have h0 := h (name, tg0) (lookupTag_mem tags name tg0 hlk) hm
      refine ⟨?_, ?_⟩
      · rw [colorAdjTag_uncertain]
        exact h0.1
      · rw [colorAdjTag_features]
        exact h0.2
    · rw [if_neg hpm] at hpe
      subst hpe
      exact h p0 hp0 hm

theorem marksClean_jobPhase_aux (allS : Finset Nat) (next : Nat)
    (tags : List (String × Tag)) (name : String) (info : UpdateOpInfo)
    (maxUsed : Nat) (tags2 : List (String × Tag)) (h : marksClean tags)
    (hmk : maxUsed ≠ 0 → isMarkName name = true)
    (hok : updateTagJobPhase allS next tags name info maxUsed = .ok tags2) :
    marksClean tags2 := by
  unfold updateTagJobPhase at hok
  cases hlk : lookupTag tags name with
  | none =>
    rw [hlk] at hok
    cases hok
  | some tg0 =>
    rw [hlk] at hok
    simp only [] at hok
    have hT1 : marksClean (colorAdjTags info tags name tg0) :=
      marksClean_colorAdj info tags name tg0 h hlk
    by_cases hmu : maxUsed ≠ 0
    · rw [if_pos hmu] at hok
      by_cases hnx : next ≤ maxUsed
      · rw [if_pos hnx] at hok
        cases hok
      · rw [if_neg hnx] at hok
        injection hok with hok2
        subst hok2
        have hmarkname := hmk hmu
        have hNTpure : pureIdFeatures (colorAdjTag info tg0).features := by
          rw [colorAdjTag_features]
          exact (h (name, tg0) (lookupTag_mem tags name tg0 hlk) hmarkname).2
        have hMpure : marksPure (setTagEntry (colorAdjTags info tags name tg0) name
            ⟨markMatches info (colorAdjTag info tg0).matched,
              markUncertain info (colorAdjTag info tg0).uncertain,
              (colorAdjTag info tg0).features,
              idListDefinition (markMatches info (colorAdjTag info tg0).matched),
              (colorAdjTag info tg0).color, (colorAdjTag info tg0).converters⟩) :=
          marksPure_setTagEntry _ _ _ (marksClean_pure _ hT1) (fun _ => hNTpure)
        obtain ⟨hMp, hMmem⟩ := marks_mem_inherit allS _ hMpure
        intro p hp hm
        obtain ⟨p1, hp1, hpe⟩ := List.mem_map.mp hp
        by_cases hpm : p1.1 = name
        · rw [if_pos hpm] at hpe
          subst hpe
          exact ⟨rfl, hMp p1 hp1 hm⟩
        · rw [if_neg hpm] at hpe
          subst hpe
          have hp1M := hMmem p1 hp1 hm
          obtain ⟨p0, hp0, hpe2⟩ := List.mem_map.mp hp1M
          by_cases hq : p0.1 = name
          · rw [if_pos hq] at hpe2
            exfalso
            apply hpm
            rw [← hpe2]
            exact hq
          · rw [if_neg hq] at hpe2
            subst hpe2
            exact hT1 p0 hp0 hm
    · rw [if_neg hmu] at hok
      injection hok with hok2
      subst hok2
      exact hT1

theorem marksClean_updateTag_aux (allS : Finset Nat) (next : Nat)
    (tags : List (String × Tag)) (name : String) (info : UpdateOpInfo)
    (tags2 : List (String × Tag)) (h : marksClean tags)
    (hok : updateTag allS next tags name info = .ok tags2) :
    marksClean tags2 := by
  rw [updateTag] at hok
  split_ifs at hok with h1 h2 h3
  · cases hok
    exact h
  · refine marksClean_jobPhase_aux allS next tags name info _ tags2 h ?_ hok
    intro _
    cases hb : isMarkName name
    · exact absurd hb h2
    · rfl
  · exact marksClean_jobPhase_aux allS next tags name info 0 tags2 h
      (fun h0 => absurd rfl h0) hok

theorem marksClean_addTag_aux (tags : List (String × Tag))
    (allStreams : Finset Nat) (next : Nat) (name color qs : String)
    (parsed : Except String ParsedQuery) (out : List (String × Tag) × Bool)
    (h : marksClean tags)
    (hq : ∀ q : ParsedQuery, parsed = Except.ok q → q.idSet.isSome = true →
      pureIdFeatures q.features)
    (hok : addTag tags allStreams next name color qs parsed = .ok out) :
    marksClean out.1 := by
  rcases parsed with e | q
  · rw [addTag] at hok
    split_ifs at hok
  · rw [addTag] at hok
    split_ifs at hok with h1 h2 h3 h4 h5 h6 h7 h8 h9 <;> try cases hok
    · intro p hp hm
      rcases List.mem_append.mp hp with hp1 | hp2
      · exact h p hp1 hm
      · rw [List.mem_singleton] at hp2
        subst hp2
        refine ⟨rfl, ?_⟩
        have hsome : q.idSet.isSome = true := by
          cases hset : q.idSet
          · exact absurd ⟨h9, hset⟩ h6
          · rfl
        exact hq q rfl hsome
    · intro p hp hm
      rcases List.mem_append.mp hp with hp1 | hp2
      · exact h p hp1 hm
      · rw [List.mem_singleton] at hp2
        subst hp2
        exact absurd hm h9

theorem marksClean_jobFinish_aux (allS upd add : Finset Nat)
    (tags : List (String × Tag)) (name : String) (t : Tag)
    (h : marksClean tags)
    (ht : isMarkName name = true → pureIdFeatures t.features) :
    marksClean (updateTagJobFinish allS upd add tags name t) := by
  unfold updateTagJobFinish
  cases hlk : lookupTag tags name with
  | none => exact h
  | some ot =>
    simp only []
    by_cases hdef : ot.definition = t.definition
    · rw [if_pos hdef]
      have hset : marksClean (setTagEntry tags name { t with uncertain := ∅ }) := by
        intro p hp hm
        obtain ⟨p0, hp0, hpe⟩ := List.mem_map.mp hp
        by_cases hpm : p0.1 = name
        · rw [if_pos hpm] at hpe
          subst hpe
          rw [hpm] at hm
          exact ⟨rfl, ht hm⟩
        · rw [if_neg hpm] at hpe
          subst hpe
          exact h p0 hp0 hm
      by_cases hz : upd = ∅ ∧ add = ∅
      · rw [if_pos hz]
        exact hset
      · rw [if_neg hz]
        exact marksClean_invalidateTags_aux allS upd add _ hset
    · rw [if_neg hdef]
      exact h

theorem marksClean_convert_aux (conv : Finset Nat)
    (tags : List (String × Tag)) (h : marksClean tags) :
    marksClean (convertJobFinish conv tags) := by
  intro p hp hm
  obtain ⟨p0, hp0, hpe⟩ := List.mem_map.mp hp
  by_cases hc : (p0.2.features.mainData || p0.2.features.subData) = true
  · rw [if_pos hc] at hpe
    subst hpe
    obtain ⟨hu, hpure⟩ := h p0 hp0 hm
    rw [hpure.1, hpure.2.2.2.2.1] at hc
    simp at hc
  · rw [if_neg hc] at hpe
    subst hpe
    exact h p0 hp0 hm

/-- C8: `mark/` and `generated/` tags keep an empty uncertain set (with
pure id-filter features) across every manager operation: tag invalidation
after an import, uncertainty inheritance, `AddTag`, `UpdateTag`, the
completion of a tagging job and the completion of a conversion job. -/
theorem c8_marks_uncertain_empty (allS upd add conv : Finset Nat)
    (tags : List (String × Tag)) :
    (marksClean tags → marksClean (invalidateTags allS upd add tags))
    ∧ (marksClean tags → marksClean (inheritTagUncertainty allS tags))
    ∧ (∀ next name color qs parsed out, marksClean tags →
        (∀ q : ParsedQuery, parsed = Except.ok q → q.idSet.isSome = true →
          pureIdFeatures q.features) →
        addTag tags allS next name color qs parsed = .ok out →
        marksClean out.1)
    ∧ (∀ next name info tags2, marksClean tags →
        updateTag allS next tags name info = .ok tags2 → marksClean tags2)
    ∧ (∀ name t, marksClean tags →
        (isMarkName name = true → pureIdFeatures t.features) →
        marksClean (updateTagJobFinish allS upd add tags name t))
    ∧ (marksClean tags → marksClean (convertJobFinish conv tags)) :=
  ⟨marksClean_invalidateTags_aux allS upd add tags,
   marksClean_inherit_aux allS tags,
   fun next name color qs parsed out h hq hok =>
     marksClean_addTag_aux tags allS next name color qs parsed out h hq hok,
   fun next name info tags2 h hok =>
     marksClean_updateTag_aux allS next tags name info tags2 h hok,
   fun name t h ht => marksClean_jobFinish_aux allS upd add tags name t h ht,
   marksClean_convert_aux conv tags⟩

/-- A manager with one mark tag and one data tag. -/
def c8ExTags : List (String × Tag) :=
  [("mark/a", ⟨{1}, ∅, ⟨true, false, false, false, false, false, false, false,
      [], []⟩, "id:1", "", []⟩),
   ("tag/d", ⟨∅, {0}, ⟨false, true, false, false, false, false, false, false,
      [], []⟩, "data:x", "", []⟩)]

/-- Witness for C8: on the two-tag example map the invariant survives a
stream invalidation and a conversion-job completion. -/
theorem c8_marks_uncertain_empty_witness :
    marksClean (invalidateTags {0, 1} {0} {1} c8ExTags)
    ∧ marksClean (convertJobFinish {0} c8ExTags) :=
  ⟨(c8_marks_uncertain_empty {0, 1} {0} {1} {0} c8ExTags).1 (by decide),
   (c8_marks_uncertain_empty {0, 1} {0} {1} {0} c8ExTags).2.2.2.2.2 (by decide)⟩

/-! ## Claims C2 and C3: the converter cache file (converters.cacheFile)

The cache file is modelled as a byte list plus the bookkeeping fields of
`cacheFile` (`int64` fields as `Nat`; they are non-negative in every
reachable state).  `fileOff` is the operating-system file offset of the
underlying descriptor: `SetData` appends through a buffered writer at that
offset, and the cleanup path moves it with `Seek`. -/

/-- `streamInfo`. -/
structure StreamInfo where
  offset : Nat
  size : Nat
deriving DecidableEq

/-- `cacheFile`. -/
structure CacheFile where
  bytes : List Nat
  fileOff : Nat
  fileSize : Nat
  freeSize : Nat
  freeStart : Nat
  streamInfos : List (Nat × StreamInfo)
deriving DecidableEq

/-- Go map lookup `cachefile.streamInfos[sid]`. -/
def lookupInfo : List (Nat × StreamInfo) → Nat → Option StreamInfo
  | [], _ => none
  | p :: rest, sid => if p.1 = sid then some p.2 else lookupInfo rest sid

/-- Go map store `cachefile.streamInfos[sid] = info`. -/
def setInfo (m : List (Nat × StreamInfo)) (sid : Nat) (info : StreamInfo) :
    List (Nat × StreamInfo) :=
  if (lookupInfo m sid).isSome then
    m.map (fun p => if p.1 = sid then (p.1, info) else p)
  else m ++ [(sid, info)]

/-- Go map delete `delete(cachefile.streamInfos, sid)`. -/
def delInfo (m : List (Nat × StreamInfo)) (sid : Nat) :
    List (Nat × StreamInfo) :=
  m.filter (fun p => !decide (p.1 = sid))

/-- `readVarInt`: MSB-first 7-bit groups, a set top bit continues; returns
the value, the byte count and the remaining input (`result` is a `uint64`,
hence the shift wraps). -/
def readVarIntAux : List Nat → Nat → Nat → Except String (Nat × Nat × List Nat)
  | [], _, _ => .error "EOF"
  | b :: rest, acc, n =>
    if b < 128 then .ok ((acc * 128) % 2 ^ 64 + b % 128, n + 1, rest)
    else readVarIntAux rest ((acc * 128) % 2 ^ 64 + b % 128) (n + 1)

/-- The varint encoder of `SetData` (the loop over `buf : [10]byte` that
emits `byte(sz&0x7f) | flag` groups from the least significant up; fuel 10
matches the buffer size). -/
def varintEncAux : Nat → Nat → Nat → List Nat → List Nat
  | 0, _, _, acc => acc
  | fuel + 1, sz, flag, acc =>
    if sz / 128 = 0 then (sz % 128 + flag) :: acc
    else varintEncAux fuel (sz / 128) 128 ((sz % 128 + flag) :: acc)

/-- The encoded varint of one chunk size. -/
def varintEnc (sz : Nat) : List Nat :=
  varintEncAux 10 sz 0 []

/-- The chunk-size bytes written by `SetData`: a `0` separator whenever the
packet direction differs from the expected one, then the varint of the
content length; the expected direction flips after every packet. -/
def sizesEnc : Direction → List Data → List Nat
  | _, [] => []
  | wantDir, d :: ds =>
    (if d.direction = wantDir then [] else [0])
      ++ varintEnc d.content.length ++ sizesEnc d.direction.rev ds

/-- The concatenated contents of all packets of one direction, in order
(the chunk-data loop of `SetData`). -/
def contentsOf (dir : Direction) : List Data → List Nat
  | [] => []
  | d :: ds => (if d.direction = dir then d.content else []) ++ contentsOf dir ds

/-- `streamSize` as accumulated by `SetData`: the chunk-size bytes, the
`[0, 0]` terminator and the data bytes. -/
def streamSizeOf (P : List Data) : Nat :=
  (sizesEnc Direction.clientToServer P).length + 2
    + (contentsOf Direction.clientToServer P).length
    + (contentsOf Direction.serverToClient P).length

/-- The little-endian `uint64` stream header (`converterStreamSection`). -/
def le64 (n : Nat) : List Nat :=
  [n % 256, n / 256 % 256, n / 256 ^ 2 % 256, n / 256 ^ 3 % 256,
   n / 256 ^ 4 % 256, n / 256 ^ 5 % 256, n / 256 ^ 6 % 256, n / 256 ^ 7 % 256]

/-- The full record written for one stream. -/
def encRecord (sid : Nat) (P : List Data) : List Nat :=
  le64 sid ++ sizesEnc Direction.clientToServer P ++ [0, 0]
    ++ contentsOf Direction.clientToServer P
    ++ contentsOf Direction.serverToClient P

/-- A positional write into the byte list (zero-filling a gap, as a sparse
file would). -/
def writeAt (bytes : List Nat) (off : Nat) (data : List Nat) : List Nat :=
  bytes.take off ++ List.replicate (off - bytes.length) 0 ++ data
    ++ bytes.drop (off + data.length)

/-- `file.Truncate(n)` (extension zero-fills). -/
def truncateTo (bytes : List Nat) (n : Nat) : List Nat :=
  bytes.take n ++ List.replicate (n - bytes.length) 0

/-- The section of the file a stream's info points at
(`io.NewSectionReader(file, info.offset, info.size)`); reads past the
physical end simply yield nothing, as `ReadAt` reports EOF there. -/
def secOf (cf : CacheFile) (info : StreamInfo) : List Nat :=
  (cf.bytes.drop info.offset).take info.size

/-- The chunk-size loop of `Data`: every decoded size becomes a chunk (also
the zero sizes), directions alternate starting with client-to-server, and
two consecutive zeros terminate.  Fuelled: every step consumes at least one
input byte. -/
def parseSizes : Nat → List Nat → Bool → Direction →
    Except String (List (Direction × Nat) × List Nat)
  | 0, _, _, _ => .error "fuel exhausted"
  | fuel + 1, input, prevZero, dir =>
    match readVarIntAux input 0 0 with
    | .error e => .error e
    | .ok (sz, _, rest) =>
      if sz = 0 ∧ prevZero = true then .ok ([], rest)
      else
        match parseSizes fuel rest (decide (sz = 0)) dir.rev with
        | .error e => .error e
        | .ok (l, rest2) => .ok ((dir, sz) :: l, rest2)

/-- `bytes[direction]` accumulation of `Data`. -/
def sumDir (dir : Direction) : List (Direction × Nat) → Nat
  | [] => 0
  | c :: rest => (if c.1 = dir then c.2 else 0) + sumDir dir rest

/-- `io.ReadFull`: exactly `n` bytes or an EOF error. -/
def takeExact (l : List Nat) (n : Nat) : Except String (List Nat × List Nat) :=
  if n ≤ l.length then .ok (l.take n, l.drop n) else .error "EOF"

/-- The split loop of `Data`: zero-size chunks are skipped, the others
consume their bytes from the client or server data. -/
def splitChunks : List (Direction × Nat) → List Nat → List Nat → List Data
  | [], _, _ => []
  | c :: rest, cd, sd =>
    if c.2 = 0 then splitChunks rest cd sd
    else if c.1 = Direction.clientToServer then
      ⟨c.1, cd.take c.2⟩ :: splitChunks rest (cd.drop c.2) sd
    else
      ⟨c.1, sd.take c.2⟩ :: splitChunks rest cd (sd.drop c.2)

/-- `cacheFile.Data(sid)`: `none` when the stream is not cached (the Go
function returns nil data and nil error then). -/
def cacheData (cf : CacheFile) (sid : Nat) :
    Except String (Option (List Data × Nat × Nat)) :=
  match lookupInfo cf.streamInfos sid with
  | none => .ok none
  | some info =>
    match parseSizes ((secOf cf info).length + 1) (secOf cf info) false
        Direction.clientToServer with
    | .error e => .error e
    | .ok (chunks, rest) =>
      match takeExact rest (sumDir Direction.clientToServer chunks) with
      | .error e => .error e
      | .ok (clientData, rest2) =>
        match takeExact rest2 (sumDir Direction.serverToClient chunks) with
        | .error e => .error e
        | .ok (serverData, _) =>
          .ok (some (splitChunks chunks clientData serverData,
            sumDir Direction.clientToServer chunks,
            sumDir Direction.serverToClient chunks))

/-- The chunk-size loop of `DataForSearch`: cumulative client and server
offsets per non-zero chunk; a zero size only flips the direction, two
consecutive zeros terminate. -/
def parseSearchSizes : Nat → List Nat → Bool → Direction → Nat × Nat →
    Except String (List (Nat × Nat) × Nat × Nat × List Nat)
  | 0, _, _, _, _ => .error "fuel exhausted"
  | fuel + 1, input, prevZero, dir, last =>
    match readVarIntAux input 0 0 with
    | .error e => .error e
    | .ok (sz, _, rest) =>
      if sz = 0 then
        if prevZero = true then .ok ([], 0, 0, rest)
        else parseSearchSizes fuel rest true dir.rev last
      else
        match parseSearchSizes fuel rest false dir.rev
            (if dir = Direction.clientToServer then (last.1 + sz, last.2)
             else (last.1, last.2 + sz)) with
        | .error e => .error e
        | .ok (l, cb, sb, rest2) =>
          .ok ((if dir = Direction.clientToServer then (last.1 + sz, last.2)
              else (last.1, last.2 + sz)) :: l,
            (if dir = Direction.clientToServer then cb + sz else cb),
            (if dir = Direction.clientToServer then sb else sb + sz), rest2)

/-- `cacheFile.DataForSearch(sid)`: the client and server bytes, the
cumulative offset pairs (starting with `(0, 0)`) and the byte counts. -/
def dataForSearch (cf : CacheFile) (sid : Nat) :
    Except String (Option ((List Nat × List Nat) × List (Nat × Nat) × Nat × Nat)) :=
  match lookupInfo cf.streamInfos sid with
  | none => .ok none
  | some info =>
    match parseSearchSizes ((secOf cf info).length + 1) (secOf cf info) false
        Direction.clientToServer (0, 0) with
    | .error e => .error e
    | .ok (l, cb, sb, rest) =>
      match takeExact rest cb with
      | .error e => .error e
      | .ok (clientData, rest2) =>
        match takeExact rest2 sb with
        | .error e => .error e
        | .ok (serverData, _) =>
          .ok (some ((clientData, serverData), (0, 0) :: l, cb, sb))

/-- The chunk-size prescan of the `SetData` cleanup loop
(`for nZeros := 0; nZeros != 2`): total data size, bytes read, rest. -/
def scanChunkSizes : Nat → List Nat → Nat → Except String (Nat × Nat × List Nat)
  | 0, _, _ => .error "fuel exhausted"
  | fuel + 1, input, nZeros =>
    if nZeros = 2 then .ok (0, 0, input)
    else
      match readVarIntAux input 0 0 with
      | .error e => .error e
      | .ok (sz, n, rest) =>
        match scanChunkSizes fuel rest (if sz = 0 then nZeros + 1 else 0) with
        | .error e => .error e
        | .ok (ds, m, rest2) => .ok (sz + ds, n + m, rest2)

/-- The record walk of the `SetData` cleanup.  The copy branch compares the
stored offset of `streamInfos[streamID]` — the id that was just deleted, so
the lookup yields the zero info and the branch demands `pos + 8 = 0`, which
never holds — against the read position; its writes would in any case only
reach a `bufio.Writer` that is never flushed, so the model advances the
reader without touching the bytes. -/
def scanRecords (infos : List (Nat × StreamInfo)) (sid : Nat) :
    Nat → List Nat → Nat → Except String Unit
  | 0, _, _ => .error "fuel exhausted"
  | fuel + 1, sec, pos =>
    if sec.length = 0 then .ok ()
    else if sec.length < 8 then .error "short stream header"
    else
      if (match lookupInfo infos sid with
          | none => 0
          | some i => i.offset) = pos + 8 then
        scanRecords infos sid fuel
          ((sec.drop 8).drop (match lookupInfo infos sid with
            | none => 0
            | some i => i.size))
          (pos + 8 + (match lookupInfo infos sid with
            | none => 0
            | some i => i.size))
      else
        match scanChunkSizes ((sec.drop 8).length + 1) (sec.drop 8) 0 with
        | .error e => .error e
        | .ok (dataSize, n, rest) =>
          if dataSize ≤ rest.length then
            scanRecords infos sid fuel (rest.drop dataSize) (pos + 8 + n + dataSize)
          else .error "discard past EOF"

/-- The cleanup trigger `freeSize >= 16MiB && freeSize >=
int64(float64(fileSize)*0.5)`; for file sizes below `2^53` the float
arithmetic is exact and the truncation is `fileSize / 2`. -/
def cleanupCond (freeSize fileSize : Nat) : Bool :=
  decide (16 * 1024 * 1024 ≤ freeSize) && decide (fileSize / 2 ≤ freeSize)

/-- The `freeSize`/`freeStart` update for an overwritten stream. -/
def freeAdj (cf : CacheFile) (info : StreamInfo) : CacheFile :=
  ⟨cf.bytes, cf.fileOff, cf.fileSize, cf.freeSize + info.size + 8,
    if info.offset - 8 < cf.freeStart then info.offset - 8 else cf.freeStart,
    cf.streamInfos⟩

/-- The append tail of `SetData`: the record is written at the current file
offset, the stream info records `fileSize + 8` as its offset, and the
bookkeeping grows by the header plus stream size. -/
def appendRecord (cf : CacheFile) (sid : Nat) (P : List Data) : CacheFile :=
  ⟨writeAt cf.bytes cf.fileOff (encRecord sid P),
    cf.fileOff + (encRecord sid P).length,
    cf.fileSize + 8 + streamSizeOf P,
    cf.freeSize,
    if cf.freeStart = cf.fileSize then cf.freeStart + 8 + streamSizeOf P
    else cf.freeStart,
    setInfo cf.streamInfos sid ⟨cf.fileSize + 8, streamSizeOf P⟩⟩

/-- The section the cleanup walks: `[freeStart, fileSize)`. -/
def cleanupSec (cf : CacheFile) : List Nat :=
  (cf.bytes.drop cf.freeStart).take (cf.fileSize - cf.freeStart)

/-- `cacheFile.SetData(sid, P)`.  On the cleanup path the `Seek` leaves the
file offset at `freeStart`, the walk writes nothing (see `scanRecords`),
the truncation uses the unchanged `fileSize`, and `freeSize` is reset while
`freeStart` is not. -/
def setData (cf : CacheFile) (sid : Nat) (P : List Data) :
    Except String CacheFile :=
  match lookupInfo cf.streamInfos sid with
  | none => .ok (appendRecord cf sid P)
  | some info =>
    if cleanupCond (cf.freeSize + info.size + 8) cf.fileSize = true then
      match scanRecords (delInfo cf.streamInfos sid) sid
          ((cleanupSec (freeAdj cf info)).length + 1)
          (cleanupSec (freeAdj cf info)) (freeAdj cf info).freeStart with
      | .error e => .error e
      | .ok _ =>
        .ok (appendRecord
          ⟨truncateTo cf.bytes cf.fileSize, (freeAdj cf info).freeStart,
            cf.fileSize, 0, (freeAdj cf info).freeStart,
            delInfo cf.streamInfos sid⟩ sid P)
    else .ok (appendRecord (freeAdj cf info) sid P)

/-! ### The claim's reading of the decoded stream (spec wording) -/

/-- The chunk list the claim expects `Data` to reconstruct: one chunk per
packet, with a zero separator chunk where the direction alternation breaks. -/
def chunksOf : Direction → List Data → List (Direction × Nat)
  | _, [] => []
  | wantDir, d :: ds =>
    (if d.direction = wantDir then [] else [(wantDir, 0)])
      ++ (d.direction, d.content.length) :: chunksOf d.direction.rev ds

/-- The direction state after encoding a packet list. -/
def finalDirOf : Direction → List Data → Direction
  | w, [] => w
  | _, d :: ds => finalDirOf d.direction.rev ds

/-- The claim's `DataForSearch` offset pairs: cumulative per-direction byte
counts after each packet. -/
def searchOffsetsSpec : List Data → Nat × Nat → List (Nat × Nat)
  | [], _ => []
  | d :: ds, last =>
    (if d.direction = Direction.clientToServer
     then (last.1 + d.content.length, last.2)
     else (last.1, last.2 + d.content.length))
      :: searchOffsetsSpec ds
        (if d.direction = Direction.clientToServer
         then (last.1 + d.content.length, last.2)
         else (last.1, last.2 + d.content.length))

/-! ### Varint round trip -/

theorem varintEncAux_append (fuel : Nat) :
    ∀ (sz flag : Nat) (acc : List Nat),
      varintEncAux fuel sz flag acc = varintEncAux fuel sz flag [] ++ acc := by
  induction fuel with
  | zero => intro sz flag acc; rfl
  | succ fuel ih =>
    intro sz flag acc
    rw [varintEncAux, varintEncAux]
    by_cases h : sz / 128 = 0
    · rw [if_pos h, if_pos h]
      rfl
    · rw [if_neg h, if_neg h, ih _ 128 ((sz % 128 + flag) :: acc),
        ih _ 128 [sz % 128 + flag], List.append_assoc]
      rfl

theorem readVarInt_encFlagged (fuel : Nat) :
    ∀ (sz acc n : Nat) (tail : List Nat), sz < 128 ^ fuel →
      acc * 128 ^ (varintEncAux fuel sz 128 []).length + sz < 2 ^ 64 →
      readVarIntAux (varintEncAux fuel sz 128 [] ++ tail) acc n
        = readVarIntAux tail
            (acc * 128 ^ (varintEncAux fuel sz 128 []).length + sz)
            (n + (varintEncAux fuel sz 128 []).length) := by
  induction fuel with
  | zero =>
    intro sz acc n tail hsz hacc
    interval_cases sz
    simp [varintEncAux, readVarIntAux]
  | succ fuel ih =>
    intro sz acc n tail hsz hacc
    rw [varintEncAux] at hacc ⊢
    by_cases h : sz / 128 = 0
    · rw [if_pos h] at hacc ⊢
      have hs : sz < 128 := by omega
      have hmod : sz % 128 = sz := Nat.mod_eq_of_lt hs
      rw [List.cons_append, readVarIntAux, if_neg (by omega)]
      rw [List.length_cons, List.length_nil] at hacc ⊢
      have hm : (acc * 128) % 2 ^ 64 = acc * 128 := by
        apply Nat.mod_eq_of_lt
        have : acc * 128 ^ 1 + sz < 2 ^ 64 := hacc
        omega
      rw [hm]
      have : (sz % 128 + 128) % 128 = sz := by omega
      rw [this]
      norm_num
    · rw [if_neg h] at hacc ⊢
      rw [varintEncAux_append fuel _ 128 [sz % 128 + 128]] at hacc ⊢
      have hlen : (varintEncAux fuel (sz / 128) 128 [] ++ [sz % 128 + 128]).length
          = (varintEncAux fuel (sz / 128) 128 []).length + 1 := by
        rw [List.length_append, List.length_cons, List.length_nil]
      rw [hlen] at hacc
      have hq : sz / 128 < 128 ^ fuel := by
        have h2 : sz < 128 ^ (fuel + 1) := hsz
        have h3 : 128 ^ (fuel + 1) = 128 ^ fuel * 128 := by ring
        rw [h3] at h2
        exact Nat.div_lt_of_lt_mul (by omega)
      have hstep : acc * 128 ^ ((varintEncAux fuel (sz / 128) 128 []).length + 1)
          = (acc * 128 ^ (varintEncAux fuel (sz / 128) 128 []).length) * 128 := by
        ring
      have haccq : acc * 128 ^ (varintEncAux fuel (sz / 128) 128 []).length
          + sz / 128 < 2 ^ 64 := by
        have hd : (acc * 128 ^ (varintEncAux fuel (sz / 128) 128 []).length) * 128
            + sz < 2 ^ 64 := by
          rw [← hstep]
          exact hacc
        generalize hA : acc * 128 ^ (varintEncAux fuel (sz / 128) 128 []).length = A at hd ⊢
        omega
      rw [List.append_assoc]
      rw [ih (sz / 128) acc n ([sz % 128 + 128] ++ tail) hq haccq]
      rw [List.cons_append, readVarIntAux, if_neg (by omega)]
      have hm : ((acc * 128 ^ (varintEncAux fuel (sz / 128) 128 []).length + sz / 128)
            * 128) % 2 ^ 64
          = (acc * 128 ^ (varintEncAux fuel (sz / 128) 128 []).length + sz / 128)
            * 128 := by
        apply Nat.mod_eq_of_lt
        rw [hstep] at hacc
        generalize hA : acc * 128 ^ (varintEncAux fuel (sz / 128) 128 []).length = A at hacc ⊢
        omega
      rw [hm, hlen]
      have heq : (acc * 128 ^ (varintEncAux fuel (sz / 128) 128 []).length + sz / 128)
            * 128 + (sz % 128 + 128) % 128
          = acc * 128 ^ ((varintEncAux fuel (sz / 128) 128 []).length + 1) + sz := by
        have h1 : (sz % 128 + 128) % 128 = sz % 128 := by omega
        rw [h1, hstep]
        generalize hA : acc * 128 ^ (varintEncAux fuel (sz / 128) 128 []).length = A
        omega
      rw [heq]
      have : n + ((varintEncAux fuel (sz / 128) 128 []).length + 1)
          = n + (varintEncAux fuel (sz / 128) 128 []).length + 1 := by omega
      rw [this, List.nil_append]

theorem varint_round (sz : Nat) (hsz : sz < 2 ^ 64) (n : Nat) (tail : List Nat) :
    readVarIntAux (varintEnc sz ++ tail) 0 n
      = .ok (sz, n + (varintEnc sz).length, tail) := by
  rw [varintEnc, varintEncAux]
  by_cases h : sz / 128 = 0
  · rw [if_pos h]
    have hs : sz < 128 := by omega
    rw [List.cons_append, readVarIntAux, if_pos (by omega)]
    simp [Nat.mod_eq_of_lt hs]
  · rw [if_neg h]
    rw [Nat.add_zero]
    rw [varintEncAux_append 9 _ 128 [sz % 128]]
    have hq : sz / 128 < 128 ^ 9 := by
      have : sz < 128 ^ 10 := lt_of_lt_of_le hsz (by norm_num)
      have h3 : 128 ^ 10 = 128 ^ 9 * 128 := by ring
      rw [h3] at this
      exact Nat.div_lt_of_lt_mul (by omega)
    have haccq : 0 * 128 ^ (varintEncAux 9 (sz / 128) 128 []).length + sz / 128
        < 2 ^ 64 := by
      have : sz / 128 ≤ sz := Nat.div_le_self _ _
      omega
    rw [List.append_assoc, readVarInt_encFlagged 9 (sz / 128) 0 n _ hq haccq]
    rw [List.cons_append, readVarIntAux,
      if_pos (show sz % 128 < 128 from Nat.mod_lt _ (by norm_num))]
    have hm : ((0 * 128 ^ (varintEncAux 9 (sz / 128) 128 []).length + sz / 128)
          * 128) % 2 ^ 64
        = (sz / 128) * 128 := by
      rw [Nat.zero_mul, Nat.zero_add]
      apply Nat.mod_eq_of_lt
      have : (sz / 128) * 128 ≤ sz := by omega
      omega
    rw [hm]
    have heq : (sz / 128) * 128 + sz % 128 % 128 = sz := by omega
    rw [heq, List.length_append, List.length_cons, List.length_nil, List.nil_append]
    norm_num
    omega

theorem varintEnc_length_pos (sz : Nat) : 1 ≤ (varintEnc sz).length := by
  rw [varintEnc, varintEncAux]
  by_cases h : sz / 128 = 0
  · rw [if_pos h]
    simp
  · rw [if_neg h, varintEncAux_append]
    simp

theorem readVarInt_zero (tail : List Nat) (n : Nat) :
    readVarIntAux (0 :: tail) 0 n = .ok (0, n + 1, tail) := by
  rw [readVarIntAux, if_pos (by norm_num)]
  norm_num

theorem Direction.eq_rev_of_ne {a b : Direction} (h : ¬ a = b) : a = b.rev := by
  cases a <;> cases b <;> simp_all [Direction.rev]

/-! ### The chunk-size parse inverts the encoder -/

theorem parseSizes_enc (P : List Data) :
    ∀ (w : Direction) (tail : List Nat) (fuel : Nat),
      (∀ d ∈ P, d.content ≠ []) →
      (∀ d ∈ P, d.content.length < 2 ^ 64) →
      (sizesEnc w P).length + 2 ≤ fuel →
      parseSizes fuel (sizesEnc w P ++ 0 :: 0 :: tail) false w
        = .ok (chunksOf w P ++ [(finalDirOf w P, 0)], tail) := by
  induction P with
  | nil =>
    intro w tail fuel _ _ hfuel
    obtain ⟨m, rfl⟩ : ∃ m, fuel = m + 1 + 1 := ⟨fuel - 2, by omega⟩
    rw [sizesEnc, List.nil_append]
    rw [parseSizes, readVarInt_zero]
    simp only []
    rw [if_neg (by simp)]
    rw [parseSizes, readVarInt_zero]
    simp only []
    rw [if_pos (by simp)]
    simp [chunksOf, finalDirOf]
  | cons d ds ih =>
    intro w tail fuel hne hlen hfuel
    have hne' : d.content ≠ [] := hne d (List.mem_cons_self d ds)
    have hlen' : d.content.length < 2 ^ 64 := hlen d (List.mem_cons_self d ds)
    have hnety : ∀ x ∈ ds, x.content ≠ [] :=
      fun x hx => hne x (List.mem_cons_of_mem d hx)
    have hlenty : ∀ x ∈ ds, x.content.length < 2 ^ 64 :=
      fun x hx => hlen x (List.mem_cons_of_mem d hx)
    have hlz : ¬ d.content.length = 0 :=
      fun hz => hne' (List.length_eq_zero.mp hz)
    have hdz : decide (d.content.length = 0) = false := by
      simp [hlz]
    rw [sizesEnc] at hfuel ⊢
    by_cases hd : d.direction = w
    · rw [if_pos hd] at hfuel ⊢
      rw [List.nil_append] at hfuel ⊢
      rw [List.append_assoc]
      obtain ⟨m, rfl⟩ : ∃ m, fuel = m + 1 := ⟨fuel - 1, by omega⟩
      rw [parseSizes, varint_round _ hlen' 0 _]
      simp only []
      rw [if_neg (by simp [hlz])]
      rw [hdz]
      have hbound : (sizesEnc d.direction.rev ds).length + 2 ≤ m := by
        rw [List.length_append] at hfuel
        have := varintEnc_length_pos d.content.length
        omega
      rw [hd] at hbound ⊢
      rw [ih w.rev tail m hnety hlenty hbound]
      simp only []
      rw [chunksOf, finalDirOf, if_pos hd, List.nil_append, hd]
      rfl
    · rw [if_neg hd] at hfuel ⊢
      have hwrev : d.direction = w.rev := Direction.eq_rev_of_ne hd
      simp only [List.cons_append, List.nil_append, List.append_assoc]
      obtain ⟨m2, rfl⟩ : ∃ m2, fuel = m2 + 1 + 1 := ⟨fuel - 2, by
        simp only [List.length_append, List.length_cons, List.length_nil] at hfuel
        omega⟩
      rw [parseSizes, readVarInt_zero]
      simp only []
      rw [if_neg (by simp)]
      rw [parseSizes, varint_round _ hlen' 0 _]
      simp only []
      rw [if_neg (by simp [hlz])]
      rw [hdz]
      have hbound : (sizesEnc d.direction.rev ds).length + 2 ≤ m2 := by
        simp only [List.length_append, List.length_cons, List.length_nil] at hfuel
        have := varintEnc_length_pos d.content.length
        omega
      rw [← hwrev]
      rw [ih d.direction.rev tail m2 hnety hlenty hbound]
      simp only []
      rw [chunksOf, finalDirOf, if_neg hd]
      rfl

theorem sumDir_append (dir : Direction) (l1 l2 : List (Direction × Nat)) :
    sumDir dir (l1 ++ l2) = sumDir dir l1 + sumDir dir l2 := by
  induction l1 with
  | nil => rw [List.nil_append, sumDir, Nat.zero_add]
  | cons c rest ih =>
    rw [List.cons_append, sumDir, sumDir, ih]
    omega

theorem sumDir_chunksOf (dir : Direction) (P : List Data) :
    ∀ w, sumDir dir (chunksOf w P) = (contentsOf dir P).length := by
  induction P with
  | nil => intro w; rfl
  | cons d ds ih =>
    intro w
    rw [chunksOf, contentsOf, sumDir_append, List.length_append]
    have hentry : sumDir dir ((d.direction, d.content.length) :: chunksOf d.direction.rev ds)
        = (if d.direction = dir then d.content.length else 0)
          + (contentsOf dir ds).length := by
      rw [sumDir, ih]
    rw [hentry]
    by_cases hd : d.direction = w
    · rw [if_pos hd]
      rw [sumDir]
      by_cases hdir : d.direction = dir
      · rw [if_pos hdir]
        simp [hdir]
      · rw [if_neg hdir]
        simp [hdir]
    · rw [if_neg hd, sumDir, sumDir]
      by_cases hdir : d.direction = dir
      · rw [if_pos hdir]
        by_cases hw : w = dir <;> simp [hw, hdir]
      · rw [if_neg hdir]
        by_cases hw : w = dir <;> simp [hw, hdir]

theorem splitChunks_enc (P : List Data) :
    ∀ (w z : Direction), (∀ d ∈ P, d.content ≠ []) →
      splitChunks (chunksOf w P ++ [(z, 0)])
        (contentsOf Direction.clientToServer P)
        (contentsOf Direction.serverToClient P) = P := by
  induction P with
  | nil =>
    intro w z _
    rw [chunksOf, List.nil_append, splitChunks, if_pos rfl]
    rfl
  | cons d ds ih =>
    intro w z hne
    have hne' : d.content ≠ [] := hne d (List.mem_cons_self d ds)
    have hnety : ∀ x ∈ ds, x.content ≠ [] :=
      fun x hx => hne x (List.mem_cons_of_mem d hx)
    rw [chunksOf, contentsOf, contentsOf]
    have hcore : splitChunks ((d.direction, d.content.length)
          :: (chunksOf d.direction.rev ds ++ [(z, 0)]))
        ((if d.direction = Direction.clientToServer then d.content else [])
          ++ contentsOf Direction.clientToServer ds)
        ((if d.direction = Direction.serverToClient then d.content else [])
          ++ contentsOf Direction.serverToClient ds) = d :: ds := by
      rw [splitChunks]
      dsimp only
      rw [if_neg (fun hz => hne' (List.length_eq_zero.mp hz))]
      by_cases hdir : d.direction = Direction.clientToServer
      · have hdir2 : ¬ d.direction = Direction.serverToClient := by
          rw [hdir]
          decide
        simp only [if_pos hdir, if_neg hdir2, List.nil_append]
        rw [List.take_left, List.drop_left]
        rw [ih d.direction.rev z hnety]
      · have hdir3 : d.direction = Direction.serverToClient := by
          cases hd2 : d.direction
          · exact absurd hd2 hdir
          · rfl
        simp only [if_neg hdir, if_pos hdir3, List.nil_append]
        rw [List.take_left, List.drop_left]
        rw [ih d.direction.rev z hnety]
    by_cases hd : d.direction = w
    · rw [if_pos hd]
      simp only [List.cons_append, List.nil_append, List.append_assoc]
      exact hcore
    · rw [if_neg hd]
      simp only [List.cons_append, List.nil_append, List.append_assoc]
      rw [splitChunks]
      dsimp only
      rw [if_pos rfl]
      exact hcore

theorem parseSearchSizes_enc (P : List Data) :
    ∀ (w : Direction) (tail : List Nat) (fuel : Nat) (last : Nat × Nat),
      (∀ d ∈ P, d.content ≠ []) →
      (∀ d ∈ P, d.content.length < 2 ^ 64) →
      (sizesEnc w P).length + 2 ≤ fuel →
      parseSearchSizes fuel (sizesEnc w P ++ 0 :: 0 :: tail) false w last
        = .ok (searchOffsetsSpec P last,
            (contentsOf Direction.clientToServer P).length,
            (contentsOf Direction.serverToClient P).length, tail) := by
  induction P with
  | nil =>
    intro w tail fuel last _ _ hfuel
    obtain ⟨m, rfl⟩ : ∃ m, fuel = m + 1 + 1 := ⟨fuel - 2, by omega⟩
    rw [sizesEnc, List.nil_append]
    rw [parseSearchSizes, readVarInt_zero]
    simp only []
    rw [if_pos trivial, if_neg (by decide)]
    rw [parseSearchSizes, readVarInt_zero]
    simp only []
    rw [if_pos trivial]
    rfl
  | cons d ds ih =>
    intro w tail fuel last hne hlen hfuel
    have hne' : d.content ≠ [] := hne d (List.mem_cons_self d ds)
    have hlen' : d.content.length < 2 ^ 64 := hlen d (List.mem_cons_self d ds)
    have hnety : ∀ x ∈ ds, x.content ≠ [] :=
      fun x hx => hne x (List.mem_cons_of_mem d hx)
    have hlenty : ∀ x ∈ ds, x.content.length < 2 ^ 64 :=
      fun x hx => hlen x (List.mem_cons_of_mem d hx)
    have hlz : ¬ d.content.length = 0 :=
      fun hz => hne' (List.length_eq_zero.mp hz)
    rw [sizesEnc] at hfuel ⊢
    rw [searchOffsetsSpec, contentsOf, contentsOf]
    by_cases hd : d.direction = w
    · rw [if_pos hd] at hfuel ⊢
      rw [List.nil_append] at hfuel ⊢
      rw [List.append_assoc]
      obtain ⟨m, rfl⟩ : ∃ m, fuel = m + 1 := ⟨fuel - 1, by omega⟩
      rw [parseSearchSizes, varint_round _ hlen' 0 _]
      simp only []
      rw [if_neg hlz]
      have hbound : (sizesEnc d.direction.rev ds).length + 2 ≤ m := by
        rw [List.length_append] at hfuel
        have := varintEnc_length_pos d.content.length
        omega
      rw [hd] at hbound ⊢
      rw [ih w.rev tail m _ hnety hlenty hbound]
      simp only []
      by_cases hw : w = Direction.clientToServer
      · simp [hw, List.length_append]
        try omega
      · have hws : w = Direction.serverToClient := by
          cases hq : w
          · exact absurd hq hw
          · rfl
        simp [hw, hws, List.length_append]
        try omega
    · rw [if_neg hd] at hfuel ⊢
      have hwrev : d.direction = w.rev := Direction.eq_rev_of_ne hd
      simp only [List.cons_append, List.nil_append, List.append_assoc]
      obtain ⟨m2, rfl⟩ : ∃ m2, fuel = m2 + 1 + 1 := ⟨fuel - 2, by
        simp only [List.length_append, List.length_cons, List.length_nil] at hfuel
        omega⟩
      rw [parseSearchSizes, readVarInt_zero]
      simp only []
      rw [if_pos trivial, if_neg (by decide)]
      rw [parseSearchSizes, varint_round _ hlen' 0 _]
      simp only []
      rw [if_neg hlz]
      have hbound : (sizesEnc d.direction.rev ds).length + 2 ≤ m2 := by
        simp only [List.length_append, List.length_cons, List.length_nil] at hfuel
        have := varintEnc_length_pos d.content.length
        omega
      rw [← hwrev]
      rw [ih d.direction.rev tail m2 _ hnety hlenty hbound]
      simp only []
      by_cases hdc : d.direction = Direction.clientToServer
      · simp [hdc, List.length_append]
        try omega
      · have hds : d.direction = Direction.serverToClient := by
          cases hq : d.direction
          · exact absurd hq hdc
          · rfl
        simp [hdc, hds, List.length_append]
        try omega

/-! ### Assembly lemmas for the cache-file claims -/

theorem writeAt_end (l d : List Nat) : writeAt l l.length d = l ++ d := by
  rw [writeAt]
  simp

theorem writeAt_length (l d : List Nat) (off : Nat) :
    (writeAt l off d).length = max l.length (off + d.length) := by
  rw [writeAt]
  simp only [List.length_append, List.length_take, List.length_replicate,
    List.length_drop]
  omega

theorem drop_append_len (l1 l2 : List Nat) (i : Nat) :
    (l1 ++ l2).drop (l1.length + i) = l2.drop i := by
  induction l1 with
  | nil => rw [List.nil_append, List.length_nil, Nat.zero_add]
  | cons a as ih =>
    rw [List.cons_append, List.length_cons]
    have h : as.length + 1 + i = (as.length + i) + 1 := by omega
    rw [h, List.drop_succ_cons, ih]

theorem drop_append_exact (l1 l2 : List Nat) :
    (l1 ++ l2).drop l1.length = l2 := by
  have h := drop_append_len l1 l2 0
  rw [Nat.add_zero, List.drop_zero] at h
  exact h

theorem encRecord_drop (sid : Nat) (P : List Data) :
    (encRecord sid P).drop 8 = sizesEnc Direction.clientToServer P ++ [0, 0]
      ++ contentsOf Direction.clientToServer P
      ++ contentsOf Direction.serverToClient P := rfl

theorem encRecord_length (sid : Nat) (P : List Data) :
    (encRecord sid P).length = 8 + streamSizeOf P := by
  rw [encRecord, streamSizeOf, le64]
  simp only [List.length_append, List.length_cons, List.length_nil]
  omega

theorem lookupInfo_append_right (m1 m2 : List (Nat × StreamInfo)) (sid : Nat)
    (h : lookupInfo m1 sid = none) :
    lookupInfo (m1 ++ m2) sid = lookupInfo m2 sid := by
  induction m1 with
  | nil => rw [List.nil_append]
  | cons p rest ih =>
    rw [lookupInfo] at h
    rw [List.cons_append, lookupInfo]
    by_cases hp : p.1 = sid
    · rw [if_pos hp] at h
      cases h
    · rw [if_neg hp] at h ⊢
      exact ih h

theorem lookupInfo_setInfo_fresh (m : List (Nat × StreamInfo)) (sid : Nat)
    (info : StreamInfo) (h : lookupInfo m sid = none) :
    lookupInfo (setInfo m sid info) sid = some info := by
  rw [setInfo, if_neg (by rw [h]; decide)]
  rw [lookupInfo_append_right m _ sid h, lookupInfo, if_pos rfl]

theorem sumDir_single_zero (dir z : Direction) : sumDir dir [(z, 0)] = 0 := by
  rw [sumDir, sumDir]
  by_cases hz : z = dir <;> simp [hz]

/-- C2 (amended): writing a fresh stream whose packets all carry content
round-trips exactly — `Data` returns the packet list unchanged together
with the per-direction byte counts, and `DataForSearch` returns the
concatenated per-direction bytes with the cumulative offset pairs.  (The
original claim promised this for every packet list; packets with empty
content are dropped by `Data`, see the counterexample, and an overwrite
that triggers the cleanup corrupts the file, see the C3 theorem.) -/
theorem c2_cache_round_trip (cf : CacheFile) (sid : Nat) (P : List Data)
    (hwf1 : cf.fileOff = cf.bytes.length)
    (hwf2 : cf.fileSize = cf.bytes.length)
    (hfresh : lookupInfo cf.streamInfos sid = none)
    (hne : ∀ d ∈ P, d.content ≠ [])
    (hlen : ∀ d ∈ P, d.content.length < 2 ^ 64) :
    ∃ cf2, setData cf sid P = .ok cf2 ∧
      cacheData cf2 sid = .ok (some (P,
        (contentsOf Direction.clientToServer P).length,
        (contentsOf Direction.serverToClient P).length)) ∧
      dataForSearch cf2 sid = .ok (some
        ((contentsOf Direction.clientToServer P,
          contentsOf Direction.serverToClient P),
         (0, 0) :: searchOffsetsSpec P (0, 0),
         (contentsOf Direction.clientToServer P).length,
         (contentsOf Direction.serverToClient P).length)) := by
  have hinfo : lookupInfo (appendRecord cf sid P).streamInfos sid
      = some ⟨cf.fileSize + 8, streamSizeOf P⟩ :=
    lookupInfo_setInfo_fresh cf.streamInfos sid _ hfresh
  have hsec : secOf (appendRecord cf sid P) ⟨cf.fileSize + 8, streamSizeOf P⟩
      = sizesEnc Direction.clientToServer P ++ 0 :: 0 ::
        (contentsOf Direction.clientToServer P
          ++ contentsOf Direction.serverToClient P) := by
    rw [secOf]
    show ((writeAt cf.bytes cf.fileOff (encRecord sid P)).drop
        (cf.fileSize + 8)).take (streamSizeOf P) = _
    rw [hwf1, writeAt_end, hwf2, drop_append_len, encRecord_drop]
    have hXlen : (sizesEnc Direction.clientToServer P ++ [0, 0]
        ++ contentsOf Direction.clientToServer P
        ++ contentsOf Direction.serverToClient P).length = streamSizeOf P := by
      simp only [List.length_append, List.length_cons, List.length_nil,
        streamSizeOf]
    rw [← hXlen, List.take_length]
    simp only [List.cons_append, List.nil_append, List.append_assoc]
  have hbound : (sizesEnc Direction.clientToServer P).length + 2
      ≤ (sizesEnc Direction.clientToServer P ++ 0 :: 0 ::
          (contentsOf Direction.clientToServer P
            ++ contentsOf Direction.serverToClient P)).length + 1 := by
    simp only [List.length_append, List.length_cons]
    omega
  have hsum1 : sumDir Direction.clientToServer
      (chunksOf Direction.clientToServer P
        ++ [(finalDirOf Direction.clientToServer P, 0)])
      = (contentsOf Direction.clientToServer P).length := by
    rw [sumDir_append, sumDir_chunksOf, sumDir_single_zero]
    omega
  have hsum2 : sumDir Direction.serverToClient
      (chunksOf Direction.clientToServer P
        ++ [(finalDirOf Direction.clientToServer P, 0)])
      = (contentsOf Direction.serverToClient P).length := by
    rw [sumDir_append, sumDir_chunksOf, sumDir_single_zero]
    omega
  refine ⟨appendRecord cf sid P, ?_, ?_, ?_⟩
  · unfold setData
    rw [hfresh]
  · unfold cacheData
    rw [hinfo]
    simp only []
    rw [hsec, parseSizes_enc P Direction.clientToServer _ _ hne hlen hbound]
    simp only [hsum1, hsum2]
    rw [takeExact, if_pos (by simp only [List.length_append]; omega)]
    simp only [List.take_left, List.drop_left]
    rw [takeExact, if_pos (Nat.le_refl _)]
    simp only [List.take_length]
    rw [splitChunks_enc P Direction.clientToServer _ hne]
  · unfold dataForSearch
    rw [hinfo]
    simp only []
    rw [hsec, parseSearchSizes_enc P Direction.clientToServer _ _ (0, 0)
      hne hlen hbound]
    simp only []
    rw [takeExact, if_pos (by simp only [List.length_append]; omega)]
    simp only [List.take_left, List.drop_left]
    rw [takeExact, if_pos (Nat.le_refl _)]
    simp only [List.take_length]

/-- A cache file as `NewCacheFile` creates it over an empty file. -/
def emptyCacheFile : CacheFile :=
  ⟨[], 0, 0, 0, 0, []⟩

/-- Counterexample to C2 as stated: a packet with empty content does not
round-trip — its zero-length chunk is skipped when `Data` splits the bytes
back into packets, so a one-packet list comes back empty. -/
theorem c2_counterexample :
    ∃ cf2, setData emptyCacheFile 7 [⟨Direction.clientToServer, []⟩]
        = .ok cf2 ∧
      cacheData cf2 7 = .ok (some ([], 0, 0)) ∧
      ([] : List Data) ≠ [⟨Direction.clientToServer, []⟩] :=
  ⟨_, rfl, rfl, by decide⟩

/-- The S1 packets: `ab` client-to-server, `zz` server-to-client, `cd`
client-to-server. -/
def s1Packets : List Data :=
  [⟨Direction.clientToServer, [97, 98]⟩,
   ⟨Direction.serverToClient, [122, 122]⟩,
   ⟨Direction.clientToServer, [99, 100]⟩]

/-- Witness for C2: the S1 example on a fresh cache — `Data(42)` returns
the three packets with 4 client and 2 server bytes, and
`DataForSearch(42)` returns client bytes `abcd`, server bytes `zz` and the
offset pairs `[(0,0),(2,0),(2,2),(4,2)]`. -/
theorem c2_cache_round_trip_witness :
    ∃ cf2, setData emptyCacheFile 42 s1Packets = .ok cf2 ∧
      cacheData cf2 42 = .ok (some (s1Packets, 4, 2)) ∧
      dataForSearch cf2 42 = .ok (some (([97, 98, 99, 100], [122, 122]),
        [(0, 0), (2, 0), (2, 2), (4, 2)], 4, 2)) := by
  obtain ⟨cf2, h1, h2, h3⟩ := c2_cache_round_trip emptyCacheFile 42 s1Packets
    rfl rfl rfl (by decide) (by decide)
  refine ⟨cf2, h1, ?_, ?_⟩
  · rw [h2]
    rfl
  · rw [h3]
    rfl

/-! ### Claim C3: the compaction scenario -/

/-- 16 MiB: the content length of the record whose overwrite triggers the
cleanup. -/
def c3L : Nat := 2 ^ 24

/-- The cached packets of stream 0: one 16 MiB client chunk. -/
def c3P0 : List Data := [⟨Direction.clientToServer, List.replicate c3L 120⟩]

/-- The cached packets of stream 1: one 1-byte client chunk. -/
def c3P1 : List Data := [⟨Direction.clientToServer, [121]⟩]

/-- The overwriting packets for stream 0. -/
def c3NewP : List Data := [⟨Direction.clientToServer, [122]⟩]

/-- The state `NewCacheFile` builds from a cache file holding the 16 MiB
record of stream 0 followed by the 12-byte record of stream 1. -/
def c3State : CacheFile :=
  ⟨encRecord 0 c3P0 ++ encRecord 1 c3P1, c3L + 26, c3L + 26, 0, c3L + 26,
    [(0, ⟨8, c3L + 6⟩), (1, ⟨c3L + 22, 4⟩)]⟩

theorem c3_sizes0 : sizesEnc Direction.clientToServer c3P0
    = [136, 128, 128, 0] := by
  rw [c3P0, sizesEnc, sizesEnc, if_pos rfl]
  dsimp only
  rw [List.length_replicate]
  rw [show varintEnc c3L = [136, 128, 128, 0] from by decide]
  rfl

theorem c3_rec0_eq : encRecord 0 c3P0
    = [0, 0, 0, 0, 0, 0, 0, 0, 136, 128, 128, 0, 0, 0]
      ++ List.replicate c3L 120 := by
  rw [encRecord, c3_sizes0]
  rw [show contentsOf Direction.clientToServer c3P0
      = List.replicate c3L 120 ++ [] from rfl]
  rw [show contentsOf Direction.serverToClient c3P0 = [] from rfl]
  rw [show le64 0 = [0, 0, 0, 0, 0, 0, 0, 0] from rfl]
  simp only [List.cons_append, List.nil_append, List.append_assoc,
    List.append_nil]

theorem c3_rec1_eq : encRecord 1 c3P1
    = [1, 0, 0, 0, 0, 0, 0, 0, 1, 0, 0, 121] := by
  decide

theorem c3_bytes_len : c3State.bytes.length = c3L + 26 := by
  show (encRecord 0 c3P0 ++ encRecord 1 c3P1).length = c3L + 26
  rw [List.length_append, c3_rec0_eq, c3_rec1_eq, List.length_append,
    List.length_replicate]
  rfl

theorem scanChunk_two_zeros (fuel : Nat) (hf : 3 ≤ fuel) (rest : List Nat) :
    scanChunkSizes fuel (0 :: 0 :: rest) 0 = .ok (0, 2, rest) := by
  obtain ⟨m, rfl⟩ : ∃ m, fuel = m + 1 + 1 + 1 := ⟨fuel - 3, by omega⟩
  rw [scanChunkSizes, if_neg (by decide), readVarInt_zero]
  simp only []
  rw [if_pos trivial]
  rw [scanChunkSizes, if_neg (by decide), readVarInt_zero]
  simp only []
  rw [if_pos trivial]
  rw [scanChunkSizes, if_pos (by norm_num)]

theorem scanChunk_c3a (fuel : Nat) (hf : 4 ≤ fuel) (rest : List Nat) :
    scanChunkSizes fuel ([136, 128, 128, 0, 0, 0] ++ rest) 0
      = .ok (2 ^ 24, 6, rest) := by
  obtain ⟨m, rfl⟩ : ∃ m, fuel = m + 1 + 1 + 1 + 1 := ⟨fuel - 4, by omega⟩
  rw [scanChunkSizes, if_neg (by decide)]
  have hv : readVarIntAux ([136, 128, 128, 0, 0, 0] ++ rest) 0 0
      = .ok (2 ^ 24, 4, 0 :: 0 :: rest) := by
    simp only [List.cons_append, List.nil_append]
    rw [readVarIntAux, if_neg (by norm_num)]
    rw [readVarIntAux, if_neg (by norm_num)]
    rw [readVarIntAux, if_neg (by norm_num)]
    rw [readVarIntAux, if_pos (by norm_num)]
    norm_num
  rw [hv]
  simp only []
  rw [if_neg (by norm_num)]
  rw [scanChunk_two_zeros (m + 1 + 1 + 1) (by omega)]
  norm_num

theorem scanChunk_c3b (fuel : Nat) (hf : 4 ≤ fuel) (rest : List Nat) :
    scanChunkSizes fuel ([1, 0, 0] ++ rest) 0 = .ok (1, 3, rest) := by
  obtain ⟨m, rfl⟩ : ∃ m, fuel = m + 1 + 1 + 1 + 1 := ⟨fuel - 4, by omega⟩
  rw [scanChunkSizes, if_neg (by decide)]
  have hv : readVarIntAux ([1, 0, 0] ++ rest) 0 0 = .ok (1, 1, 0 :: 0 :: rest) := by
    simp only [List.cons_append, List.nil_append]
    rw [readVarIntAux, if_pos (by norm_num)]
    norm_num
  rw [hv]
  simp only []
  rw [if_neg (by norm_num)]
  rw [scanChunk_two_zeros (m + 1 + 1 + 1) (by omega)]

theorem scanRecords_c3 (fuel : Nat) (hf : 3 ≤ fuel) :
    scanRecords [(1, ⟨c3L + 22, 4⟩)] 0 fuel
      (encRecord 0 c3P0 ++ encRecord 1 c3P1) 0 = .ok () := by
  obtain ⟨m, rfl⟩ : ∃ m, fuel = m + 1 + 1 + 1 := ⟨fuel - 3, by omega⟩
  have hlk : lookupInfo [(1, (⟨c3L + 22, 4⟩ : StreamInfo))] 0 = none := rfl
  have hlen : (encRecord 0 c3P0 ++ encRecord 1 c3P1).length = c3L + 26 :=
    c3_bytes_len
  rw [scanRecords, hlen]
  rw [if_neg (by rw [c3L]; norm_num), if_neg (by rw [c3L]; norm_num), hlk]
  simp only []
  rw [if_neg (by norm_num)]
  have hdrop8 : (encRecord 0 c3P0 ++ encRecord 1 c3P1).drop 8
      = [136, 128, 128, 0, 0, 0] ++ (List.replicate c3L 120
          ++ encRecord 1 c3P1) := by
    rw [c3_rec0_eq, List.append_assoc]
    rfl
  rw [hdrop8]
  have hflen : ([136, 128, 128, 0, 0, 0]
      ++ (List.replicate c3L 120 ++ encRecord 1 c3P1)).length + 1 ≥ 4 := by
    rw [List.length_append]
    rw [show ([136, 128, 128, 0, 0, 0] : List Nat).length = 6 from rfl]
    omega
  rw [scanChunk_c3a _ hflen]
  simp only []
  have hrest : (2 : Nat) ^ 24
      ≤ (List.replicate c3L 120 ++ encRecord 1 c3P1).length := by
    rw [List.length_append, List.length_replicate, c3L]
    omega
  rw [if_pos hrest]
  have hdropL : (List.replicate c3L 120 ++ encRecord 1 c3P1).drop (2 ^ 24)
      = encRecord 1 c3P1 := by
    have h : (List.replicate c3L (120 : Nat)).length = 2 ^ 24 := by
      rw [List.length_replicate]
      rfl
    rw [← h, drop_append_exact]
  rw [hdropL, c3_rec1_eq]
  rw [scanRecords]
  rw [show ([1, 0, 0, 0, 0, 0, 0, 0, 1, 0, 0, 121] : List Nat).length = 12 from
    rfl]
  rw [if_neg (by norm_num), if_neg (by norm_num), hlk]
  simp only []
  rw [if_neg (by norm_num)]
  rw [show ([1, 0, 0, 0, 0, 0, 0, 0, 1, 0, 0, 121] : List Nat).drop 8
      = [1, 0, 0] ++ [121] from rfl]
  rw [scanChunk_c3b _ (by norm_num)]
  simp only []
  rw [if_pos (by norm_num)]
  rw [show (([121] : List Nat)).drop 1 = [] from rfl]
  rw [scanRecords]
  rw [if_pos (by decide)]

/-- The cache file `SetData 0 c3NewP` actually produces on `c3State`: the
new record overwrites the first 12 bytes while its recorded offset
`c3L + 34` lies past the end of the unshrunk file. -/
def c3After : CacheFile :=
  ⟨encRecord 0 c3NewP ++ (encRecord 0 c3P0 ++ encRecord 1 c3P1).drop 12,
    12, c3L + 38, 0, 0,
    [(1, ⟨c3L + 22, 4⟩), (0, ⟨c3L + 34, 4⟩)]⟩

theorem c3_rec0_len : (encRecord 0 c3P0).length = c3L + 14 := by
  rw [c3_rec0_eq, List.length_append, List.length_replicate]
  rw [show ([0, 0, 0, 0, 0, 0, 0, 0, 136, 128, 128, 0, 0, 0] :
    List Nat).length = 14 from rfl]
  omega

theorem c3_newbytes_len :
    (encRecord 0 c3NewP ++ (encRecord 0 c3P0 ++ encRecord 1 c3P1).drop 12).length
      = c3L + 26 := by
  have hB : (encRecord 0 c3P0 ++ encRecord 1 c3P1).length = c3L + 26 :=
    c3_bytes_len
  rw [List.length_append, List.length_drop, hB]
  rw [show (encRecord 0 c3NewP).length = 12 from rfl]
  omega

theorem c3_cleanupSec : cleanupSec (freeAdj c3State ⟨8, c3L + 6⟩)
    = encRecord 0 c3P0 ++ encRecord 1 c3P1 := by
  have hB : (encRecord 0 c3P0 ++ encRecord 1 c3P1).length = c3L + 26 :=
    c3_bytes_len
  rw [cleanupSec]
  rw [show (freeAdj c3State ⟨8, c3L + 6⟩).freeStart = 0 from by decide]
  rw [show (freeAdj c3State ⟨8, c3L + 6⟩).fileSize = c3L + 26 from by decide]
  rw [show (freeAdj c3State ⟨8, c3L + 6⟩).bytes
    = encRecord 0 c3P0 ++ encRecord 1 c3P1 from rfl]
  rw [List.drop_zero, Nat.sub_zero, ← hB, List.take_length]

theorem c3_truncate : truncateTo c3State.bytes c3State.fileSize
    = encRecord 0 c3P0 ++ encRecord 1 c3P1 := by
  have hB : (encRecord 0 c3P0 ++ encRecord 1 c3P1).length = c3L + 26 :=
    c3_bytes_len
  rw [truncateTo]
  rw [show c3State.bytes = encRecord 0 c3P0 ++ encRecord 1 c3P1 from rfl]
  rw [show c3State.fileSize = c3L + 26 from rfl]
  rw [← hB, List.take_length, Nat.sub_self, List.replicate_zero,
    List.append_nil]

theorem c3_writeAt :
    writeAt (encRecord 0 c3P0 ++ encRecord 1 c3P1) 0 (encRecord 0 c3NewP)
      = encRecord 0 c3NewP ++ (encRecord 0 c3P0 ++ encRecord 1 c3P1).drop 12 := by
  rw [writeAt]
  rw [List.take_zero, Nat.zero_sub, List.replicate_zero]
  rw [show (0 : Nat) + (encRecord 0 c3NewP).length = 12 from rfl]
  rw [List.nil_append, List.nil_append]

theorem c3_setData : setData c3State 0 c3NewP = .ok c3After := by
  have hB : (encRecord 0 c3P0 ++ encRecord 1 c3P1).length = c3L + 26 :=
    c3_bytes_len
  rw [setData]
  rw [show lookupInfo c3State.streamInfos 0 = some ⟨8, c3L + 6⟩ from rfl]
  simp only []
  rw [if_pos (by decide)]
  rw [c3_cleanupSec]
  rw [show delInfo c3State.streamInfos 0
    = [(1, (⟨c3L + 22, 4⟩ : StreamInfo))] from rfl]
  rw [show (freeAdj c3State ⟨8, c3L + 6⟩).freeStart = 0 from by decide]
  rw [scanRecords_c3 _ (by rw [hB]; omega)]
  simp only []
  rw [c3_truncate]
  rw [appendRecord]
  dsimp only
  rw [c3_writeAt]
  rfl

/-- `cacheData` once the stream section is known: the same parse, split and
read chain on the section bytes. -/
def cacheDataSec (sec : List Nat) : Except String (Option (List Data × Nat × Nat)) :=
  match parseSizes (sec.length + 1) sec false Direction.clientToServer with
  | .error e => .error e
  | .ok (chunks, rest) =>
    match takeExact rest (sumDir Direction.clientToServer chunks) with
    | .error e => .error e
    | .ok (clientData, rest2) =>
      match takeExact rest2 (sumDir Direction.serverToClient chunks) with
      | .error e => .error e
      | .ok (serverData, _) =>
        .ok (some (splitChunks chunks clientData serverData,
          sumDir Direction.clientToServer chunks,
          sumDir Direction.serverToClient chunks))

theorem cacheData_eval (cf : CacheFile) (sid : Nat) (info : StreamInfo)
    (sec : List Nat) (h1 : lookupInfo cf.streamInfos sid = some info)
    (h2 : secOf cf info = sec) :
    cacheData cf sid = cacheDataSec sec := by
  rw [cacheData, h1]
  simp only []
  rw [h2, cacheDataSec]

theorem c3_data0_after : cacheData c3After 0 = .error "EOF" := by
  have hsec : secOf c3After ⟨c3L + 34, 4⟩ = [] := by
    rw [secOf]
    dsimp only
    have h1 : c3After.bytes.length = c3L + 26 := c3_newbytes_len
    rw [List.drop_eq_nil_of_le (by omega)]
    rfl
  rw [cacheData_eval c3After 0 ⟨c3L + 34, 4⟩ [] rfl hsec]
  rfl

theorem c3_drop_after : c3After.bytes.drop (c3L + 22)
    = (encRecord 1 c3P1).drop 8 := by
  rw [show c3After.bytes
    = encRecord 0 c3NewP ++ (encRecord 0 c3P0 ++ encRecord 1 c3P1).drop 12
    from rfl]
  rw [show c3L + 22 = (encRecord 0 c3NewP).length + (c3L + 10) from by
    rw [show (encRecord 0 c3NewP).length = 12 from rfl]
    omega]
  rw [drop_append_len]
  rw [List.drop_drop]
  rw [show 12 + (c3L + 10) = (encRecord 0 c3P0).length + 8 from by
    rw [c3_rec0_len]
    omega]
  rw [drop_append_len]

theorem c3_data1_after : cacheData c3After 1
    = .ok (some ([⟨Direction.clientToServer, [121]⟩], 1, 0)) := by
  have hsec : secOf c3After ⟨c3L + 22, 4⟩ = [1, 0, 0, 121] := by
    rw [secOf]
    dsimp only
    rw [c3_drop_after, c3_rec1_eq]
    rfl
  rw [cacheData_eval c3After 1 ⟨c3L + 22, 4⟩ [1, 0, 0, 121] rfl hsec]
  rfl

theorem c3_data1_before : cacheData c3State 1
    = .ok (some ([⟨Direction.clientToServer, [121]⟩], 1, 0)) := by
  have hsec : secOf c3State ⟨c3L + 22, 4⟩ = [1, 0, 0, 121] := by
    rw [secOf]
    dsimp only
    rw [show c3State.bytes = encRecord 0 c3P0 ++ encRecord 1 c3P1 from rfl]
    rw [show c3L + 22 = (encRecord 0 c3P0).length + 8 from by
      rw [c3_rec0_len]]
    rw [drop_append_len, c3_rec1_eq]
    rfl
  rw [cacheData_eval c3State 1 ⟨c3L + 22, 4⟩ [1, 0, 0, 121] rfl hsec]
  rfl

/-- C3: the compaction claim fails on the code.  On `c3State` — a cache file
whose free bytes (16 MiB + 14) exceed both the 16 MiB floor and half the
file size — `SetData 0 c3NewP` takes the cleanup path, yet no record is
rewritten and the file never shrinks: the byte length stays `c3L + 26` while
`fileSize` grows to `c3L + 38`, the new record is written at offset 0 (the
old free start) instead of being appended at end of file (`fileOff = 12`),
its stored offset `c3L + 34` points past the physical end, so `Data` on the
stream just written fails with EOF; the surviving stream 1 keeps its old
offset (it is never relocated) and is only readable because its bytes
happened not to be overwritten. -/
theorem c3_compaction_corrupts :
    cleanupCond (c3State.freeSize + (c3L + 6) + 8) c3State.fileSize = true
    ∧ setData c3State 0 c3NewP = .ok c3After
    ∧ c3After.bytes.length = c3State.bytes.length
    ∧ c3After.fileSize = c3State.fileSize + 12
    ∧ c3After.fileOff = 12
    ∧ lookupInfo c3After.streamInfos 0 = some ⟨c3L + 34, 4⟩
    ∧ c3After.bytes.length < c3L + 34
    ∧ cacheData c3After 0 = .error "EOF"
    ∧ lookupInfo c3After.streamInfos 1 = lookupInfo c3State.streamInfos 1
    ∧ cacheData c3After 1
        = .ok (some ([⟨Direction.clientToServer, [121]⟩], 1, 0))
    ∧ cacheData c3State 1
        = .ok (some ([⟨Direction.clientToServer, [121]⟩], 1, 0)) := by
  refine ⟨by decide, c3_setData, ?_, by decide, rfl, rfl, ?_, c3_data0_after,
    rfl, c3_data1_after, c3_data1_before⟩
  · have h1 : c3After.bytes.length = c3L + 26 := c3_newbytes_len
    rw [h1, c3_bytes_len]
  · have h1 : c3After.bytes.length = c3L + 26 := c3_newbytes_len
    omega

end Pkappa2
